import Mathlib

/-!
Shallow embedding of the hamerkop entity-linking core (kb.py, coref.py,
resolver.py, candidates.py, string.py, utilities.py) and proofs about it.

Python strings are modelled as lists of unicode characters (`PyStr`), Python
dicts as insertion-ordered association lists (`PyDict`), and Python sets of
strings as membership predicates over their element lists.  Machine floats
produced by `math.log1p` are modelled by an abstract rational-valued weight
function `w : Nat → Nat → ℚ` standing for `(U, f) ↦ ln(1 + U / f)`; theorems
that depend on the weight quantify over `w`, assuming only the properties that
the real logarithm satisfies (positivity on positive arguments).
-/

namespace Hamerkop

/-- Python str modelled as a list of characters. -/
abbrev PyStr := List Char

/-- Python str.lower (ASCII case folding, as used by the code's keys). -/
def pyLower (s : PyStr) : PyStr := s.map Char.toLower

/-- Python str.strip: remove leading and trailing whitespace. -/
def pyStrip (s : PyStr) : PyStr :=
  (s.dropWhile Char.isWhitespace).reverse.dropWhile Char.isWhitespace |>.reverse

/-- The ASCII characters of Python string.punctuation.  The source builds its
punctuation table from the full Unicode database; the claims under proof do
not depend on non-ASCII punctuation, so the table is restricted to ASCII. -/
def punctChars : List Char :=
  ['!', '"', '#', '$', '%', '&', '(', ')', '*', '+', ',', '-', '.', '/',
   ':', ';', '<', '=', '>', '?', '@', '[', '\\', ']', '^', '_', '~',
   '\x27', '\x60', '\x7b', '\x7c', '\x7d']

/-- String.replace_unicode_punct: replace punctuation by spaces, then strip. -/
def replace_unicode_punct (s : PyStr) : PyStr :=
  pyStrip (s.map (fun c => if c ∈ punctChars then ' ' else c))

/-- String.ngrams: the list s[i:i+n] for i in range(len(s) - n + 1).
The Nat subtraction `s.length + 1 - n` matches Python's empty range when the
string is shorter than n. -/
def ngrams (s : PyStr) (n : Nat) : List PyStr :=
  (List.range (s.length + 1 - n)).map (fun i => (s.drop i).take n)

/-- Python dict: an association list in key-insertion order. -/
abbrev PyDict (κ β : Type) : Type := List (κ × β)

namespace PyDict

variable {κ β : Type} [DecidableEq κ]

/-- The empty dict. -/
def empty : PyDict κ β := []

/-- d[k] lookup returning an Option. -/
def get? (d : PyDict κ β) (k : κ) : Option β :=
  (List.find? (fun p => decide (p.1 = k)) d).map (fun p => p.2)

/-- k in d. -/
def hasKey (d : PyDict κ β) (k : κ) : Bool :=
  List.any d (fun p => decide (p.1 = k))

/-- d[k] = v: overwrite in place if the key exists, else append at the end,
exactly like a Python dict preserving insertion order. -/
def set (d : PyDict κ β) (k : κ) (v : β) : PyDict κ β :=
  if hasKey d k then List.map (fun p => if p.1 = k then (k, v) else p) d
  else d ++ [(k, v)]

/-- list(d.keys()). -/
def keys (d : PyDict κ β) : List κ := List.map (fun p => p.1) d

/-- list(d.values()). -/
def values (d : PyDict κ β) : List β := List.map (fun p => p.2) d

/-- len(d). -/
def size (d : PyDict κ β) : Nat := List.length d

end PyDict

/-- CaseInsensitiveDict from utilities.py: a dict whose key operations lower
the key first. -/
def ciGet? {β : Type} (d : PyDict PyStr β) (k : PyStr) : Option β :=
  PyDict.get? d (pyLower k)

/-- CaseInsensitiveDict membership. -/
def ciHasKey {β : Type} (d : PyDict PyStr β) (k : PyStr) : Bool :=
  PyDict.hasKey d (pyLower k)

/-- CaseInsensitiveDict assignment. -/
def ciSet {β : Type} (d : PyDict PyStr β) (k : PyStr) (v : β) : PyDict PyStr β :=
  PyDict.set d (pyLower k) v

/-- EntityType from core.py: the four LoReHLT entity types. -/
inductive EntityType
  | PER
  | ORG
  | GPE
  | LOC
deriving DecidableEq, Repr

/-- Entity from core.py, restricted to the fields the claims exercise
(id, type and the name set).  The Python name set is modelled as the list of
its elements in iteration order. -/
structure Entity where
  id : PyStr
  type : EntityType
  names : List PyStr
deriving DecidableEq, Repr

/-- MemoryKB from kb.py: the dictionary entity id -> Entity, built by
inserting each loaded entity keyed by its id. -/
abbrev MemoryKB : Type := PyDict PyStr Entity

/-- Build the MemoryKB entities dict from the loaded entity records. -/
def MemoryKB.ofList (es : List Entity) : MemoryKB :=
  es.foldl (fun d e => PyDict.set d e.id e) PyDict.empty

/-- MemoryKB.get_entity: self.entities.get(entity_id). -/
def MemoryKB.get_entity (kb : MemoryKB) (i : PyStr) : Option Entity :=
  PyDict.get? kb i

/-- MemoryKB.get_entities: [self.entities[x] for x in ids if x in self.entities]. -/
def MemoryKB.get_entities (kb : MemoryKB) (ids : List PyStr) : List Entity :=
  ids.filterMap (fun i => MemoryKB.get_entity kb i)

/-- Iterating a MemoryKB yields its entities in dict order. -/
def MemoryKB.entityList (kb : MemoryKB) : List Entity := PyDict.values kb

/-- Every name of every KB entity, in iteration order (with repetitions). -/
def MemoryKB.allNames (kb : MemoryKB) : List PyStr :=
  ((MemoryKB.entityList kb).map (fun e => e.names)).flatten

/-- A type-indexed family of dicts, as built by `index = {}` with one
sub-dict per entity type. -/
abbrev TypeIndex (β : Type) : Type := EntityType → PyDict PyStr β

/-- Update the sub-dict of one entity type. -/
def TypeIndex.update {β : Type} (idx : TypeIndex β) (t : EntityType)
    (d : PyDict PyStr β) : TypeIndex β :=
  fun s => if s = t then d else idx s

namespace ExactMatchMemoryNameIndex

/-- ExactMatchMemoryNameIndex._build_index: per entity type, a
CaseInsensitiveDict from name to the list of entity ids bearing it, filled by
appending each entity id under each of its names. -/
def build_index (kb : MemoryKB) : TypeIndex (List PyStr) :=
  (MemoryKB.entityList kb).foldl
    (fun idx e =>
      e.names.foldl
        (fun idx nm =>
          let d := idx e.type
          TypeIndex.update idx e.type
            (ciSet d nm (((ciGet? d nm).getD []) ++ [e.id])))
        idx)
    (fun _ => PyDict.empty)

/-- ExactMatchMemoryNameIndex.find.  The limit parameter (default 25 in the
source) is accepted but never used by the source method. -/
def find (kb : MemoryKB) (idx : TypeIndex (List PyStr)) (name : PyStr)
    (t : EntityType) (limit : Nat) : List Entity :=
  let _ := limit
  if ciHasKey (idx t) name then
    MemoryKB.get_entities kb ((ciGet? (idx t) name).getD [])
  else []

end ExactMatchMemoryNameIndex

namespace NgramMemoryNameIndex

/-- A name instance: (entity id, position of the name in the entity's name
set iteration order), as produced by enumerate(entity.names). -/
abbrev NameId := PyStr × Nat

/-- NgramMemoryNameIndex._format_string: fold punctuation, lower-case, join
the space-separated words with the boundary marker and pad both ends. -/
def format_string (s : PyStr) : PyStr :=
  let t := pyLower (replace_unicode_punct s)
  '_' :: (t.map (fun c => if c = ' ' then '_' else c) ++ ['_'])

/-- The cached data of the index: the number of distinct lower-cased names in
the KB and, per entity type, the map from n-gram to its posting list of name
instances. -/
structure Data where
  num_unique_names : Nat
  index : TypeIndex (List NameId)

/-- Add one formatted name's n-grams to a type sub-index, appending the name
instance to each n-gram's posting list (defaultdict(list) semantics). -/
def addNameNgrams (d : PyDict PyStr (List NameId)) (n : Nat) (nid : NameId)
    (fname : PyStr) : PyDict PyStr (List NameId) :=
  (ngrams fname n).foldl
    (fun d g => PyDict.set d g (((PyDict.get? d g).getD []) ++ [nid])) d

/-- One entity's contribution to the accumulated (all_names, index) pair. -/
def buildStep (n : Nat) (acc : List PyStr × TypeIndex (List NameId))
    (e : Entity) : List PyStr × TypeIndex (List NameId) :=
  e.names.enum.foldl
    (fun acc inm =>
      let low := pyLower inm.2
      let all := if low ∈ acc.1 then acc.1 else acc.1 ++ [low]
      let d := addNameNgrams (acc.2 e.type) n (e.id, inm.1) (format_string inm.2)
      (all, TypeIndex.update acc.2 e.type d))
    acc

/-- NgramMemoryNameIndex._build_index together with the num_unique_names
count: all_names accumulates the distinct lower-cased names over every entity,
and each name instance is posted under each n-gram of its formatted form. -/
def build_index (kb : MemoryKB) (n : Nat) : Data :=
  let r := (MemoryKB.entityList kb).foldl (buildStep n) ([], fun _ => PyDict.empty)
  ⟨r.1.length, r.2⟩

/-- The posting list of one n-gram for one entity type (empty when absent,
as for a defaultdict(list)). -/
def posting (data : Data) (t : EntityType) (g : PyStr) : List NameId :=
  ((data.index t).get? g).getD []

/-- The mass accumulation loop of NgramMemoryNameIndex.find: for each query
n-gram occurrence with a non-empty posting list, add the idf weight
w(U, len(posting)) to every name instance occurrence in the posting list.
The weight w models (U, f) ↦ math.log1p(U / f). -/
def massDict (data : Data) (w : Nat → Nat → ℚ) (t : EntityType)
    (gs : List PyStr) : PyDict NameId ℚ :=
  gs.foldl
    (fun m g =>
      let nids := posting data t g
      if nids.length = 0 then m
      else
        nids.foldl
          (fun m nid =>
            PyDict.set m nid (((PyDict.get? m nid).getD 0)
              + w data.num_unique_names nids.length))
          m)
    PyDict.empty

/-- max over a non-empty Python list. -/
def pyMax (l : List ℚ) : ℚ := l.foldl max (l.headD 0)

/-- Descending order on (name instance, mass) pairs used to embed
sorted(top, key=top.get, reverse=True). -/
def massGE (p q : NameId × ℚ) : Prop := q.2 ≤ p.2

instance : DecidableRel massGE := fun p q => inferInstanceAs (Decidable (q.2 ≤ p.2))

instance : IsTotal (NameId × ℚ) massGE := ⟨fun p q => le_total q.2 p.2⟩

instance : IsTrans (NameId × ℚ) massGE := ⟨fun _ _ _ h h' => le_trans h' h⟩

/-- NgramMemoryNameIndex.find.  Returns, like the source expression
list(self.kb.get_entity(item[0]) for item in top), one kb lookup result per
selected name instance.  `if limit:` is Python truthiness: limit = 0 applies
no truncation. -/
def find (kb : MemoryKB) (data : Data) (w : Nat → Nat → ℚ) (n : Nat)
    (name : PyStr) (t : EntityType) (limit : Nat) : List (Option Entity) :=
  let gs := ngrams (format_string name) n
  let name_mass := massDict data w t gs
  if name_mass.length = 0 then []
  else
    let threshold := pyMax (PyDict.values name_mass) / 2
    let top := name_mass.filter (fun p => decide (threshold < p.2))
    let srt := List.insertionSort massGE top
    let sel := if limit ≠ 0 then (srt.map (fun p => p.1)).take limit
               else srt.map (fun p => p.1)
    sel.map (fun nid => MemoryKB.get_entity kb nid.1)

end NgramMemoryNameIndex

/-- Mention from core.py, restricted to the fields the claims exercise.  The
optional transliteration and translation are None or a string in the source;
offsets are the character span identifying the mention. -/
structure Mention where
  string : PyStr
  translit_string : Option PyStr
  translate_string : Option PyStr
  type : EntityType
  offsets : Nat × Nat
deriving DecidableEq, Repr

/-- MentionChain from core.py, restricted to the fields the claims exercise.
The source initializes candidates to None; the claims only exercise chains
whose candidate list has been set, so candidates is a plain list here. -/
structure MentionChain where
  mentions : List Mention
  candidates : List Entity
  entity : Option Entity
deriving DecidableEq, Repr

/-- MentionChain.names: the set of mention strings, modelled by the list of
member strings (membership is all the call sites use). -/
def MentionChain.names (c : MentionChain) : List PyStr :=
  c.mentions.map (fun m => m.string)

/-- MentionChain.get_all_strings: mention strings plus any truthy (non-empty)
transliterated and translated variants. -/
def MentionChain.get_all_strings (c : MentionChain) : List PyStr :=
  c.mentions.map (fun m => m.string)
    ++ c.mentions.filterMap (fun m => match m.translit_string with
        | some s => if s = [] then none else some s
        | none => none)
    ++ c.mentions.filterMap (fun m => match m.translate_string with
        | some s => if s = [] then none else some s
        | none => none)

namespace CorefStage

/-- CorefStage.merge from coref.py.  `ord` stands for list(set(to_merge)):
the duplicates of to_merge removed, in the arbitrary iteration order of the
Python set; theorems quantify over every admissible `ord`.  The new chain
concatenates the merged chains' mention lists (sum(..., [])) and is appended
after the chains that were not merged. -/
def merge (chains : List MentionChain) (ord : List MentionChain) :
    List MentionChain :=
  let new_chain : MentionChain := ⟨(ord.map (fun c => c.mentions)).flatten, [], none⟩
  chains.filter (fun c => decide (c ∉ ord)) ++ [new_chain]

/-- `ord` is an admissible iteration order for list(set(to_merge)). -/
def SetOrder (to_merge ord : List MentionChain) : Prop :=
  ord.Nodup ∧ ∀ c, c ∈ ord ↔ c ∈ to_merge

end CorefStage

namespace CorefScorer

/-- CorefScorer.muc: per predicted cluster, the correct-link count is the
cluster size minus the mentions missing from the mention map minus the number
of distinct ground-truth clusters hit; the denominator adds size - 1 per
cluster.  Mentions and cluster ids are strings. -/
def muc (clusters : List (List PyStr)) (mention_map : PyDict PyStr PyStr) :
    Int × Int :=
  clusters.foldl
    (fun acc c =>
      let p := acc.2 + (c.length : Int) - 1
      let misses := (c.filter (fun m => ¬ PyDict.hasKey mention_map m)).length
      let linked := (c.filterMap (fun m => PyDict.get? mention_map m)).dedup
      let tp := acc.1 + (c.length : Int) - (misses : Int) - (linked.length : Int)
      (tp, p))
    (0, 0)

/-- str(n) for the cluster counter. -/
def natStr (n : Nat) : PyStr := Nat.toDigits 10 n

/-- CorefScorer._create_mention_map: number the clusters from 1 and map every
mention id to its cluster id C<n>. -/
def create_mention_map (clusters : List (List PyStr)) : PyDict PyStr PyStr :=
  (clusters.enum.foldl
    (fun mm ic =>
      ic.2.foldl (fun mm m => PyDict.set mm m ('C' :: natStr (ic.1 + 1))) mm)
    PyDict.empty)

end CorefScorer

namespace ExactNameResolver

/-- Truthiness of `names & CaseInsensitiveSet(candidate.names)`: the two
case-insensitive sets share an element. -/
def ciIntersects (a b : List PyStr) : Bool :=
  a.any (fun s => b.any (fun t => decide (pyLower s = pyLower t)))

/-- The per-chain body of ExactNameResolver.resolve: compare the chain's
mention strings (MentionChain.names) case-insensitively against each
candidate's name set; select a unique match, narrow to several matches, or
leave the chain untouched. -/
def resolveChain (c : MentionChain) : MentionChain :=
  let mtch := c.candidates.filter (fun cand => ciIntersects (MentionChain.names c) cand.names)
  if mtch.isEmpty then c
  else if mtch.length = 1 then { c with entity := mtch.head? }
  else { c with candidates := mtch }

/-- ExactNameResolver.resolve over the document's chain list. -/
def resolve (chains : List MentionChain) : List MentionChain :=
  chains.map resolveChain

end ExactNameResolver

namespace CascadeResolver

/-- A child resolver, abstracted as its effect on the document's chain list. -/
abbrev ChildResolver := List MentionChain → List MentionChain

/-- The loop of CascadeResolver.resolve: run each resolver on the working
chain list, set aside the chains it resolved, keep the unresolved ones as the
next working set, and break once nothing is unresolved.  Returns the final
working set and the set-aside resolved chains in resolution order. -/
def run : List ChildResolver → List MentionChain →
    List MentionChain × List MentionChain
  | [], chains => (chains, [])
  | r :: rs, chains =>
    let cs := r chains
    let new_resolved := cs.filter (fun c => c.entity.isSome)
    let remaining := cs.filter (fun c => c.entity.isNone)
    if remaining.isEmpty then (remaining, new_resolved)
    else
      let rest := run rs remaining
      (rest.1, new_resolved ++ rest.2)

/-- CascadeResolver.resolve: the document's chain list afterwards is the
final working set followed by the resolved chains. -/
def resolve (rs : List ChildResolver) (chains : List MentionChain) :
    List MentionChain :=
  (run rs chains).1 ++ (run rs chains).2

/-- The working chain lists passed to each resolver that is actually run. -/
def inputs : List ChildResolver → List MentionChain → List (List MentionChain)
  | [], _ => []
  | r :: rs, chains =>
    let remaining := (r chains).filter (fun c => c.entity.isNone)
    chains :: (if remaining.isEmpty then [] else inputs rs remaining)

end CascadeResolver

namespace CascadeGenerator

/-- The loop of CascadeGenerator.find for one mention chain: each child
generator is abstracted as the candidate list it returns for that chain.
Entities are keyed into candidate_dict by id; after each generator, stop if
the unique-candidate count has reached num_candidates.  Returns the final
dict and the number of generators that were queried. -/
def steps (num_candidates : Nat) : List (List Entity) → PyDict PyStr Entity →
    PyDict PyStr Entity × Nat
  | [], d => (d, 0)
  | g :: gs, d =>
    let d' := g.foldl (fun d e => PyDict.set d e.id e) d
    if num_candidates ≤ d'.length then (d', 1)
    else
      let rest := steps num_candidates gs d'
      (rest.1, rest.2 + 1)

/-- CascadeGenerator.find: list(candidate_dict.values()). -/
def find (gens : List (List Entity)) (num_candidates : Nat) : List Entity :=
  PyDict.values (steps num_candidates gens PyDict.empty).1

/-- The number of child generators the cascade actually queries. -/
def queried (gens : List (List Entity)) (num_candidates : Nat) : Nat :=
  (steps num_candidates gens PyDict.empty).2

/-- The candidate dict accumulated from a list of generator results with no
early stop (used to state what was accumulated from the first i generators). -/
def accum (gens : List (List Entity)) : PyDict PyStr Entity :=
  gens.foldl (fun d g => g.foldl (fun d e => PyDict.set d e.id e) d) PyDict.empty

end CascadeGenerator

namespace FirstResolver

/-- FirstResolver.resolve from resolver.py: select the first candidate when
any exist. -/
def resolve (chains : List MentionChain) : List MentionChain :=
  chains.map (fun c =>
    match c.candidates with
    | [] => c
    | e :: _ => { c with entity := some e })

end FirstResolver

namespace NgramMemoryNameIndex

/-- The mass that claim C1 ascribes to a name instance: the sum over the
distinct shared n-grams of w(U, f), with f the number of name instances
containing the n-gram (written per the spec text, for comparison with the
source algorithm). -/
def specMass (data : Data) (w : Nat → Nat → ℚ) (t : EntityType)
    (gs : List PyStr) (nid : NameId) : ℚ :=
  ((gs.dedup.filter (fun g => decide (nid ∈ posting data t g))).map
    (fun g => w data.num_unique_names (posting data t g).dedup.length)).sum

/-- The query algorithm as claim C1 states it (written per the spec text, for
comparison with the source algorithm): score each name instance sharing an
n-gram by specMass, discard masses at most half of the maximum, sort by
descending mass and truncate to the limit. -/
def specFind (kb : MemoryKB) (data : Data) (w : Nat → Nat → ℚ) (n : Nat)
    (name : PyStr) (t : EntityType) (limit : Nat) : List (Option Entity) :=
  let gs := ngrams (format_string name) n
  let cands := ((gs.map (fun g => posting data t g)).flatten).dedup
  let scored : PyDict NameId ℚ := cands.map (fun nid => (nid, specMass data w t gs nid))
  if scored.length = 0 then []
  else
    let mx := pyMax (PyDict.values scored)
    let top := scored.filter (fun p => decide (mx / 2 < p.2))
    let srt := List.insertionSort massGE top
    ((srt.map (fun p => p.1)).take limit).map (fun nid => MemoryKB.get_entity kb nid.1)

end NgramMemoryNameIndex

namespace ExactNameResolver

/-- The per-chain resolution step as claim C6 states it (written per the spec
text, for comparison with the source): the intersection also includes the
chain's transliterated/translated variants, i.e. MentionChain.get_all_strings
instead of MentionChain.names. -/
def spec_resolveChain (c : MentionChain) : MentionChain :=
  let mtch := c.candidates.filter
    (fun cand => ciIntersects (MentionChain.get_all_strings c) cand.names)
  if mtch.isEmpty then c
  else if mtch.length = 1 then { c with entity := mtch.head? }
  else { c with candidates := mtch }

end ExactNameResolver

/-! Concrete instances used by counterexamples and witnesses. -/

/-- A unit idf weight, standing in for ln(1 + U/f) in closed computations:
every positive weight, the true logarithmic one included, drives the control
flow of the algorithms identically on these instances. -/
def unitW : Nat → Nat → ℚ := fun _ _ => 1

/-- Entity 1 of the n-gram counterexample: one name sharing the duplicated
query n-gram. -/
def entAA : Entity := ⟨"1".toList, .PER, ["aa".toList]⟩

/-- Entity 2 of the n-gram counterexample: one name sharing exactly one
non-duplicated query n-gram. -/
def entBAAB : Entity := ⟨"2".toList, .PER, ["baa ab".toList]⟩

/-- The two-entity KB of the n-gram counterexample. -/
def kbC1 : MemoryKB := MemoryKB.ofList [entAA, entBAAB]

/-- The n-gram index (width 4, the source default) of kbC1. -/
def dataC1 : NgramMemoryNameIndex.Data := NgramMemoryNameIndex.build_index kbC1 4

/-- An entity whose name set holds two spellings of one name, so that both
its name instances can score above the threshold for one query. -/
def entDouble : Entity := ⟨"1".toList, .PER, ["aa".toList, "AA".toList]⟩

/-- The one-entity KB of the duplicate-result example. -/
def kbC10 : MemoryKB := MemoryKB.ofList [entDouble]

/-- The n-gram index (width 4) of kbC10. -/
def dataC10 : NgramMemoryNameIndex.Data := NgramMemoryNameIndex.build_index kbC10 4

/-- KB entity 122, named John Smith. -/
def ent122 : Entity := ⟨"122".toList, .PER, ["John Smith".toList]⟩

/-- KB entity 124, also named John Smith. -/
def ent124 : Entity := ⟨"124".toList, .PER, ["John Smith".toList]⟩

/-- KB entity 125, named Jake Smith. -/
def ent125 : Entity := ⟨"125".toList, .PER, ["Jake Smith".toList]⟩

/-- The three-entity KB of the John Smith scenarios. -/
def kbJohn : MemoryKB := MemoryKB.ofList [ent122, ent124, ent125]

/-- A mention of John Smith (with no transliteration or translation). -/
def mentionJohn : Mention := ⟨"John Smith".toList, none, none, .PER, (1, 10)⟩

/-- The chain of mentionJohn with candidates 122, 124 and 125. -/
def chainJohn : MentionChain := ⟨[mentionJohn], [ent122, ent124, ent125], none⟩

/-- A mention whose surface string matches no candidate name but whose
transliteration is John Smith. -/
def mentionXq : Mention := ⟨"xq".toList, some ("John Smith".toList), none, .PER, (1, 2)⟩

/-- The chain of mentionXq with the single candidate 122. -/
def chainXq : MentionChain := ⟨[mentionXq], [ent122], none⟩

/-- First document mention (offsets 1-2) of the merge counterexample. -/
def mentA : Mention := ⟨"a".toList, none, none, .PER, (1, 2)⟩

/-- Second document mention (offsets 3-4) of the merge counterexample. -/
def mentB : Mention := ⟨"b".toList, none, none, .PER, (3, 4)⟩

/-- Third document mention (offsets 5-6) of the merge counterexample. -/
def mentC : Mention := ⟨"c".toList, none, none, .PER, (5, 6)⟩

/-- A chain holding the first and third mention of the document. -/
def chainAC : MentionChain := ⟨[mentA, mentC], [], none⟩

/-- A chain holding the second mention of the document. -/
def chainB : MentionChain := ⟨[mentB], [], none⟩

/-! Auxiliary lemmas about the Python dict model. -/

namespace PyDict

variable {κ β : Type} [DecidableEq κ]

theorem get?_nil (k : κ) : get? (κ := κ) (β := β) [] k = none := rfl

theorem get?_cons (p : κ × β) (d : PyDict κ β) (k : κ) :
    get? (p :: d) k = if p.1 = k then some p.2 else get? d k := by
  by_cases h : p.1 = k <;> simp [get?, List.find?, h]

theorem hasKey_nil (k : κ) : hasKey (κ := κ) (β := β) [] k = false := rfl

theorem hasKey_cons (p : κ × β) (d : PyDict κ β) (k : κ) :
    hasKey (p :: d) k = (decide (p.1 = k) || hasKey d k) := by
  simp [hasKey]

theorem hasKey_iff_mem_keys (d : PyDict κ β) (k : κ) :
    hasKey d k = true ↔ k ∈ keys d := by
  induction d with
  | nil => simp [hasKey_nil, keys]
  | cons p d ih =>
    rw [hasKey_cons]
    simp only [keys, List.map_cons, List.mem_cons, Bool.or_eq_true,
      decide_eq_true_eq] at *
    constructor
    · rintro (h | h)
      · exact Or.inl h.symm
      · exact Or.inr (ih.mp h)
    · rintro (h | h)
      · exact Or.inl h.symm
      · exact Or.inr (ih.mpr h)

theorem get?_eq_none_of_not_mem {d : PyDict κ β} {k : κ} (h : k ∉ keys d) :
    get? d k = none := by
  induction d with
  | nil => rfl
  | cons p d ih =>
    rw [get?_cons]
    simp only [keys, List.map_cons, List.mem_cons] at h
    push_neg at h
    rw [if_neg (fun he => h.1 he.symm)]
    exact ih h.2

theorem get?_mapSet (d : PyDict κ β) (k : κ) (v : β) (k' : κ) :
    get? (List.map (fun p => if p.1 = k then (k, v) else p) d) k'
      = if k' = k then (if hasKey d k then some v else none) else get? d k' := by
  induction d with
  | nil => by_cases h : k' = k <;> simp [get?_nil, hasKey_nil, h]
  | cons p d ih =>
    by_cases hp : p.1 = k
    · simp only [List.map_cons, if_pos hp]
      rw [get?_cons, get?_cons, hasKey_cons]
      by_cases hk' : k' = k
      · subst hk'
        simp [hp]
      · simp only [if_neg hk']
        rw [if_neg (show ((k, v).1 = k') → False from fun h => hk' h.symm)]
        rw [if_neg (show (p.1 = k') → False from fun h => hk' (hp ▸ h).symm)]
        rw [ih, if_neg hk']
    · simp only [List.map_cons, if_neg hp]
      rw [get?_cons, get?_cons, hasKey_cons]
      by_cases hk' : k' = k
      · subst hk'
        rw [if_neg hp, if_neg hp, ih, if_pos rfl]
        simp [hp]
      · rw [ih, if_neg hk', if_neg hk']

theorem get?_append (d d₂ : PyDict κ β) (k : κ) :
    get? (d ++ d₂) k = ((get? d k).orElse (fun _ => get? d₂ k)) := by
  induction d with
  | nil => simp [get?_nil, Option.orElse]
  | cons p d ih =>
    rw [List.cons_append, get?_cons, get?_cons]
    by_cases hp : p.1 = k
    · simp [hp, Option.orElse]
    · simp only [if_neg hp]
      exact ih

theorem get?_set (d : PyDict κ β) (k : κ) (v : β) (k' : κ) :
    get? (set d k v) k' = if k' = k then some v else get? d k' := by
  unfold set
  by_cases hk : hasKey d k
  · rw [if_pos hk, get?_mapSet, if_pos hk]
  · rw [if_neg hk, get?_append]
    by_cases hk' : k' = k
    · subst hk'
      rw [get?_eq_none_of_not_mem (fun hm => hk ((hasKey_iff_mem_keys d k').mpr hm))]
      simp [get?_cons, Option.orElse]
    · rw [if_neg hk']
      cases hg : get? d k' with
      | some v' => simp [Option.orElse]
      | none =>
        simp only [Option.orElse, get?_cons, get?_nil]
        rw [if_neg (show (k = k') → False from fun h => hk' h.symm)]

theorem keys_set (d : PyDict κ β) (k : κ) (v : β) :
    keys (set d k v) = if hasKey d k then keys d else keys d ++ [k] := by
  unfold set
  by_cases hk : hasKey d k
  · rw [if_pos hk, if_pos hk]
    unfold keys
    rw [List.map_map]
    apply List.map_congr_left
    intro p _
    by_cases hp : p.1 = k <;> simp [hp]
  · rw [if_neg hk, if_neg hk]
    simp [keys]

theorem mem_keys_set (d : PyDict κ β) (k : κ) (v : β) (k' : κ) :
    k' ∈ keys (set d k v) ↔ k' ∈ keys d ∨ k' = k := by
  rw [keys_set]
  by_cases hk : hasKey d k
  · rw [if_pos hk]
    constructor
    · exact Or.inl
    · rintro (h | rfl)
      · exact h
      · exact (hasKey_iff_mem_keys d k').mp hk
  · rw [if_neg hk]
    simp

theorem nodup_keys_set (d : PyDict κ β) (k : κ) (v : β)
    (h : (keys d).Nodup) : (keys (set d k v)).Nodup := by
  rw [keys_set]
  by_cases hk : hasKey d k
  · rwa [if_pos hk]
  · rw [if_neg hk]
    refine List.Nodup.append h (List.nodup_singleton k) ?_
    intro a ha hb
    rw [List.mem_singleton] at hb
    subst hb
    exact hk ((hasKey_iff_mem_keys d a).mpr ha)

theorem get?_eq_some_of_mem {d : PyDict κ β} (h : (keys d).Nodup) {p : κ × β}
    (hp : p ∈ d) : get? d p.1 = some p.2 := by
  induction d with
  | nil => cases hp
  | cons q d ih =>
    rw [get?_cons]
    rcases List.mem_cons.mp hp with rfl | hp'
    · rw [if_pos rfl]
    · have hq : q.1 ≠ p.1 := by
        intro he
        have : p.1 ∈ keys d := List.mem_map.mpr ⟨p, hp', rfl⟩
        rw [← he] at this
        exact (List.nodup_cons.mp h).1 this
      rw [if_neg hq]
      exact ih (List.nodup_cons.mp h).2 hp'

end PyDict

theorem ciGet?_ciSet {β : Type} (d : PyDict PyStr β) (k : PyStr) (v : β) (k' : PyStr) :
    ciGet? (ciSet d k v) k' = if pyLower k' = pyLower k then some v else ciGet? d k' := by
  unfold ciGet? ciSet
  exact PyDict.get?_set d (pyLower k) v (pyLower k')

theorem hasKey_append {κ β : Type} [DecidableEq κ] (d d₂ : PyDict κ β) (k : κ) :
    PyDict.hasKey (d ++ d₂) k = (PyDict.hasKey d k || PyDict.hasKey d₂ k) := by
  simp [PyDict.hasKey]

/-! Auxiliary lemmas about MemoryKB. -/

theorem MemoryKB.foldl_set_fresh (es : List Entity) (d : PyDict PyStr Entity)
    (hnd : (es.map Entity.id).Nodup) (hfresh : ∀ e ∈ es, PyDict.hasKey d e.id = false) :
    es.foldl (fun d e => PyDict.set d e.id e) d = d ++ es.map (fun e => (e.id, e)) := by
  induction es generalizing d with
  | nil => simp
  | cons a es ih =>
    have hnd2 : (∀ x ∈ es, ¬x.id = a.id) ∧ (es.map Entity.id).Nodup := by
      simpa using hnd
    have ha : PyDict.hasKey d a.id = false := hfresh a (List.mem_cons_self a es)
    have hset : PyDict.set d a.id a = d ++ [(a.id, a)] := by
      unfold PyDict.set
      rw [ha]
      simp
    have hfresh' : ∀ e ∈ es, PyDict.hasKey (d ++ [(a.id, a)]) e.id = false := by
      intro e he
      rw [hasKey_append]
      have h1 : PyDict.hasKey d e.id = false := hfresh e (List.mem_cons_of_mem a he)
      have h2 : PyDict.hasKey [(a.id, a)] e.id = false := by
        have hne : ¬a.id = e.id := fun hid => hnd2.1 e he (hid ▸ rfl)
        simp [PyDict.hasKey, hne]
      rw [h1, h2]
      rfl
    rw [List.foldl_cons, hset, ih (d ++ [(a.id, a)]) hnd2.2 hfresh']
    simp

theorem MemoryKB.ofList_eq (es : List Entity) (hnd : (es.map Entity.id).Nodup) :
    MemoryKB.ofList es = es.map (fun e => (e.id, e)) := by
  unfold MemoryKB.ofList
  rw [MemoryKB.foldl_set_fresh es PyDict.empty hnd (fun e _ => rfl)]
  rfl

theorem MemoryKB.entityList_ofList (es : List Entity) (hnd : (es.map Entity.id).Nodup) :
    MemoryKB.entityList (MemoryKB.ofList es) = es := by
  rw [MemoryKB.entityList, MemoryKB.ofList_eq es hnd]
  unfold PyDict.values
  rw [List.map_map]
  exact List.map_id es

theorem MemoryKB.get_entity_ofList (es : List Entity) (hnd : (es.map Entity.id).Nodup)
    (i : PyStr) (e : Entity) :
    MemoryKB.get_entity (MemoryKB.ofList es) i = some e ↔ e ∈ es ∧ e.id = i := by
  rw [MemoryKB.get_entity, MemoryKB.ofList_eq es hnd]
  induction es with
  | nil => simp [PyDict.get?_nil]
  | cons a es ih =>
    simp only [List.map_cons, PyDict.get?_cons]
    have hnd' : (es.map Entity.id).Nodup := (List.nodup_cons.mp (by simpa using hnd)).2
    by_cases hai : a.id = i
    · rw [if_pos hai]
      constructor
      · rintro h
        injection h with h
        exact ⟨h ▸ List.mem_cons_self a es, h ▸ hai⟩
      · rintro ⟨hm, hei⟩
        rcases List.mem_cons.mp hm with rfl | hm'
        · rfl
        · exfalso
          have : e.id ∈ es.map Entity.id := List.mem_map.mpr ⟨e, hm', rfl⟩
          rw [hei, ← hai] at this
          exact (List.nodup_cons.mp (by simpa using hnd)).1 this
    · rw [if_neg hai]
      rw [ih hnd']
      constructor
      · rintro ⟨hm, hei⟩
        exact ⟨List.mem_cons_of_mem a hm, hei⟩
      · rintro ⟨hm, hei⟩
        rcases List.mem_cons.mp hm with rfl | hm'
        · exact absurd hei hai
        · exact ⟨hm', hei⟩

theorem MemoryKB.mem_get_entities (kb : MemoryKB) (ids : List PyStr) (e : Entity) :
    e ∈ MemoryKB.get_entities kb ids ↔ ∃ i ∈ ids, MemoryKB.get_entity kb i = some e := by
  unfold MemoryKB.get_entities
  rw [List.mem_filterMap]

/-! Characterization of the exact-match index build. -/

namespace ExactMatchMemoryNameIndex

/-- The id list stored for a name in one type sub-index. -/
def idsFor (idx : TypeIndex (List PyStr)) (t : EntityType) (name : PyStr) : List PyStr :=
  (ciGet? (idx t) name).getD []

theorem idsFor_update_ne (idx : TypeIndex (List PyStr)) (t t' : EntityType)
    (d : PyDict PyStr (List PyStr)) (name : PyStr) (h : t' ≠ t) :
    idsFor (TypeIndex.update idx t d) t' name = idsFor idx t' name := by
  unfold idsFor TypeIndex.update
  rw [if_neg h]

theorem mem_idsFor_innerFold (e : Entity) (names : List PyStr)
    (idx : TypeIndex (List PyStr)) (t : EntityType) (nm0 : PyStr) (i : PyStr) :
    i ∈ idsFor (names.foldl
        (fun idx nm => TypeIndex.update idx e.type
          (ciSet (idx e.type) nm (((ciGet? (idx e.type) nm).getD []) ++ [e.id]))) idx) t nm0
      ↔ i ∈ idsFor idx t nm0
        ∨ (i = e.id ∧ e.type = t ∧ ∃ nm ∈ names, pyLower nm = pyLower nm0) := by
  induction names generalizing idx with
  | nil => simp
  | cons nm names ih =>
    rw [List.foldl_cons, ih]
    by_cases ht : e.type = t
    · subst ht
      have hupd : ∀ s, TypeIndex.update idx e.type s e.type = s := by
        intro s
        unfold TypeIndex.update
        rw [if_pos rfl]
      have hci : pyLower nm0 = pyLower nm →
          ciGet? (idx e.type) nm0 = ciGet? (idx e.type) nm := by
        intro hlw
        unfold ciGet?
        rw [hlw]
      constructor
      · rintro (h | ⟨hi, _, nm', hnm', hl⟩)
        · unfold idsFor at h
          rw [hupd, ciGet?_ciSet] at h
          by_cases hlw : pyLower nm0 = pyLower nm
          · rw [if_pos hlw] at h
            simp only [Option.getD_some, List.mem_append, List.mem_singleton] at h
            rcases h with h | rfl
            · refine Or.inl ?_
              unfold idsFor
              rw [hci hlw]
              exact h
            · exact Or.inr ⟨rfl, rfl, nm, List.mem_cons_self nm names, hlw.symm⟩
          · rw [if_neg hlw] at h
            exact Or.inl h
        · exact Or.inr ⟨hi, rfl, nm', List.mem_cons_of_mem nm hnm', hl⟩
      · rintro (h | ⟨hi, _, nm', hnm', hl⟩)
        · left
          unfold idsFor at h ⊢
          rw [hupd, ciGet?_ciSet]
          by_cases hlw : pyLower nm0 = pyLower nm
          · rw [if_pos hlw]
            simp only [Option.getD_some, List.mem_append]
            left
            rw [hci hlw] at h
            exact h
          · rw [if_neg hlw]
            exact h
        · rcases List.mem_cons.mp hnm' with rfl | hmem
          · left
            unfold idsFor
            rw [hupd, ciGet?_ciSet, if_pos hl.symm]
            simp [hi]
          · exact Or.inr ⟨hi, rfl, nm', hmem, hl⟩
    · rw [idsFor_update_ne idx e.type t _ nm0 (fun h => ht h.symm)]
      constructor
      · rintro (h | ⟨hi, het, rest⟩)
        · exact Or.inl h
        · exact absurd het ht
      · rintro (h | ⟨hi, het, rest⟩)
        · exact Or.inl h
        · exact absurd het ht

theorem mem_idsFor_build (es : List Entity) (idx : TypeIndex (List PyStr))
    (t : EntityType) (nm0 : PyStr) (i : PyStr) :
    i ∈ idsFor (es.foldl
        (fun idx e => e.names.foldl
          (fun idx nm => TypeIndex.update idx e.type
            (ciSet (idx e.type) nm (((ciGet? (idx e.type) nm).getD []) ++ [e.id]))) idx) idx) t nm0
      ↔ i ∈ idsFor idx t nm0
        ∨ ∃ e ∈ es, i = e.id ∧ e.type = t ∧ ∃ nm ∈ e.names, pyLower nm = pyLower nm0 := by
  induction es generalizing idx with
  | nil => simp
  | cons a es ih =>
    rw [List.foldl_cons, ih, mem_idsFor_innerFold]
    constructor
    · rintro ((h | h) | ⟨e, he, rest⟩)
      · exact Or.inl h
      · exact Or.inr ⟨a, List.mem_cons_self a es, h⟩
      · exact Or.inr ⟨e, List.mem_cons_of_mem a he, rest⟩
    · rintro (h | ⟨e, he, rest⟩)
      · exact Or.inl (Or.inl h)
      · rcases List.mem_cons.mp he with rfl | hmem
        · exact Or.inl (Or.inr rest)
        · exact Or.inr ⟨e, hmem, rest⟩

theorem mem_idsFor_build_index (kb : MemoryKB) (t : EntityType) (nm0 : PyStr) (i : PyStr) :
    i ∈ idsFor (build_index kb) t nm0
      ↔ ∃ e ∈ MemoryKB.entityList kb, i = e.id ∧ e.type = t
          ∧ ∃ nm ∈ e.names, pyLower nm = pyLower nm0 := by
  unfold build_index
  rw [mem_idsFor_build]
  simp [idsFor, ciGet?, PyDict.get?_nil, PyDict.empty]

theorem find_eq_get_entities (kb : MemoryKB) (idx : TypeIndex (List PyStr))
    (name : PyStr) (t : EntityType) (limit : Nat) :
    find kb idx name t limit = MemoryKB.get_entities kb (idsFor idx t name) := by
  unfold find
  by_cases h : ciHasKey (idx t) name
  · rw [if_pos h]
    rfl
  · rw [if_neg h]
    have hnone : ciGet? (idx t) name = none := by
      apply PyDict.get?_eq_none_of_not_mem
      intro hm
      exact h ((PyDict.hasKey_iff_mem_keys _ _).mpr hm)
    unfold idsFor
    rw [hnone]
    rfl

end ExactMatchMemoryNameIndex

/-- C2: for every name string and entity type, ExactMatchMemoryNameIndex.find
returns exactly the entities of the KB whose type equals the given type and
whose name set contains the query name under case-insensitive comparison
(stated for a KB loaded from records with distinct entity ids, the KB
invariant). -/
theorem claim_c2_exact_find_characterization (es : List Entity)
    (hnd : (es.map Entity.id).Nodup) (name : PyStr) (t : EntityType) (limit : Nat)
    (e : Entity) :
    e ∈ ExactMatchMemoryNameIndex.find (MemoryKB.ofList es)
        (ExactMatchMemoryNameIndex.build_index (MemoryKB.ofList es)) name t limit
      ↔ e ∈ es ∧ e.type = t ∧ ∃ nm ∈ e.names, pyLower nm = pyLower name := by
  rw [ExactMatchMemoryNameIndex.find_eq_get_entities, MemoryKB.mem_get_entities]
  constructor
  · rintro ⟨i, hi, hget⟩
    rw [ExactMatchMemoryNameIndex.mem_idsFor_build_index,
      MemoryKB.entityList_ofList es hnd] at hi
    rcases hi with ⟨e', he', hie', ht', nm, hnm, hl⟩
    rw [MemoryKB.get_entity_ofList es hnd] at hget
    have hee : e' = e :=
      List.inj_on_of_nodup_map hnd he' hget.1 (by rw [← hie', hget.2])
    subst hee
    exact ⟨hget.1, ht', nm, hnm, hl⟩
  · rintro ⟨he, ht, nm, hnm, hl⟩
    refine ⟨e.id, ?_, ?_⟩
    · rw [ExactMatchMemoryNameIndex.mem_idsFor_build_index,
        MemoryKB.entityList_ofList es hnd]
      exact ⟨e, he, rfl, ht, nm, hnm, hl⟩
    · rw [MemoryKB.get_entity_ofList es hnd]
      exact ⟨he, rfl⟩

/-- Witness for C2 at a concrete KB: entity 122 is found for the query
john smith of type PER, by the characterization. -/
theorem claim_c2_witness :
    ((([ent122, ent124, ent125].map Entity.id).Nodup) ∧
      (ent122 ∈ ExactMatchMemoryNameIndex.find (MemoryKB.ofList [ent122, ent124, ent125])
          (ExactMatchMemoryNameIndex.build_index (MemoryKB.ofList [ent122, ent124, ent125]))
          ("john smith".toList) EntityType.PER 25
        ↔ ent122 ∈ [ent122, ent124, ent125] ∧ ent122.type = EntityType.PER
          ∧ ∃ nm ∈ ent122.names, pyLower nm = pyLower ("john smith".toList))) :=
  ⟨by decide, claim_c2_exact_find_characterization [ent122, ent124, ent125] (by decide)
    ("john smith".toList) EntityType.PER 25 ent122⟩

/-- C3: the exact-match index ignores the limit argument, contradicting the
documented find contract: on a KB holding two PER entities both named
John Smith, find with limit 1 returns both of them. -/
theorem claim_c3_limit_ignored :
    (ExactMatchMemoryNameIndex.find kbJohn
      (ExactMatchMemoryNameIndex.build_index kbJohn)
      ("john smith".toList) EntityType.PER 1).length = 2 := by decide

theorem PyDict.get?_eq_none_iff {κ β : Type} [DecidableEq κ] (d : PyDict κ β) (k : κ) :
    PyDict.get? d k = none ↔ k ∉ PyDict.keys d := by
  constructor
  · intro h hm
    induction d with
    | nil => cases hm
    | cons p d ih =>
      rw [PyDict.get?_cons] at h
      rcases List.mem_cons.mp hm with he | hm'
      · rw [if_pos he.symm] at h
        cases h
      · by_cases hp : p.1 = k
        · rw [if_pos hp] at h
          cases h
        · rw [if_neg hp] at h
          exact ih h hm'
  · exact PyDict.get?_eq_none_of_not_mem

theorem CorefScorer.muc_loop (mm : PyDict PyStr PyStr) (clusters : List (List PyStr)) :
    ∀ (a b : Int),
    clusters.foldl
      (fun acc c =>
        let p := acc.2 + (c.length : Int) - 1
        let misses := (c.filter (fun m => ¬ PyDict.hasKey mm m)).length
        let linked := (c.filterMap (fun m => PyDict.get? mm m)).dedup
        let tp := acc.1 + (c.length : Int) - (misses : Int) - (linked.length : Int)
        (tp, p)) (a, b)
      = (a + (clusters.map (fun c => (c.length : Int)
            - ((c.filter (fun m => ¬ PyDict.hasKey mm m)).length : Int)
            - (((c.filterMap (fun m => PyDict.get? mm m)).dedup).length : Int))).sum,
         b + (clusters.map (fun c => (c.length : Int) - 1)).sum) := by
  induction clusters with
  | nil => simp
  | cons c cs ih =>
    intro a b
    rw [List.foldl_cons, ih]
    simp only [List.map_cons, List.sum_cons, Prod.mk.injEq]
    constructor <;> ring

/-- C5: the MUC scorer counts, per predicted cluster, (cluster size) minus
(mentions absent from the ground-truth mention map) minus (distinct
ground-truth clusters the remaining mentions map into) as correct links, and
(cluster size - 1) towards the denominator; on ground truth {m1,m2,m3,m4} as
one cluster against predictions {m1,m2} and {m3,m4}, the recall side is
numerator 2 and denominator 3. -/
theorem claim_c5_muc (clusters : List (List PyStr)) (mm : PyDict PyStr PyStr) :
    CorefScorer.muc clusters mm
      = ((clusters.map (fun c => (c.length : Int)
            - ((c.filter (fun m => PyDict.get? mm m = none)).length : Int)
            - (((c.filterMap (fun m => PyDict.get? mm m)).dedup).length : Int))).sum,
         (clusters.map (fun c => (c.length : Int) - 1)).sum)
    ∧ CorefScorer.muc [["m1".toList, "m2".toList, "m3".toList, "m4".toList]]
        (CorefScorer.create_mention_map [["m1".toList, "m2".toList],
          ["m3".toList, "m4".toList]]) = (2, 3) := by
  constructor
  · unfold CorefScorer.muc
    rw [CorefScorer.muc_loop]
    have hmap : ∀ c : List PyStr,
        c.filter (fun m => ¬ PyDict.hasKey mm m) = c.filter (fun m => PyDict.get? mm m = none) := by
      intro c
      apply List.filter_congr
      intro m _
      simp only [decide_eq_true_eq, decide_eq_decide]
      rw [PyDict.get?_eq_none_iff]
      constructor
      · intro h hm
        exact h ((PyDict.hasKey_iff_mem_keys mm m).mpr hm)
      · intro h hb
        exact h ((PyDict.hasKey_iff_mem_keys mm m).mp hb)
    simp only [hmap, zero_add]
  · decide

theorem ExactNameResolver.ciIntersects_iff (a b : List PyStr) :
    ExactNameResolver.ciIntersects a b = true
      ↔ ∃ s ∈ a, ∃ u ∈ b, pyLower s = pyLower u := by
  unfold ExactNameResolver.ciIntersects
  simp [List.any_eq_true]

/-- C6 (amended: the intersection uses the chain's mention strings only;
transliterated/translated variants are not consulted): a candidate matches
exactly when some mention string equals one of its names case-insensitively;
a unique match becomes the chain entity, several matches replace the
candidate list, no match leaves the chain unchanged; and on the John Smith
example the candidates narrow to 122 and 124 with no entity chosen. -/
theorem claim_c6_exact_name_resolver (c : MentionChain) (mtch : List Entity)
    (hm : mtch = c.candidates.filter
      (fun cand => ExactNameResolver.ciIntersects (MentionChain.names c) cand.names)) :
    (∀ cand, cand ∈ mtch ↔ cand ∈ c.candidates
        ∧ ∃ m ∈ c.mentions, ∃ nm ∈ cand.names, pyLower m.string = pyLower nm)
    ∧ (mtch = [] → ExactNameResolver.resolveChain c = c)
    ∧ (∀ e, mtch = [e] →
        ExactNameResolver.resolveChain c = { c with entity := some e })
    ∧ (2 ≤ mtch.length →
        ExactNameResolver.resolveChain c = { c with candidates := mtch })
    ∧ ExactNameResolver.resolveChain chainJohn
        = { chainJohn with candidates := [ent122, ent124] }
    ∧ (ExactNameResolver.resolveChain chainJohn).entity = none := by
  refine ⟨?_, ?_, ?_, ?_, by decide, by decide⟩
  · intro cand
    rw [hm, List.mem_filter]
    rw [ExactNameResolver.ciIntersects_iff]
    unfold MentionChain.names
    constructor
    · rintro ⟨hc, s, hs, u, hu, hl⟩
      rcases List.mem_map.mp hs with ⟨m, hmm, rfl⟩
      exact ⟨hc, m, hmm, u, hu, hl⟩
    · rintro ⟨hc, m, hmm, nm, hnm, hl⟩
      exact ⟨hc, m.string, List.mem_map.mpr ⟨m, hmm, rfl⟩, nm, hnm, hl⟩
  · intro h0
    unfold ExactNameResolver.resolveChain
    rw [← hm, h0]
    rfl
  · intro e h1
    unfold ExactNameResolver.resolveChain
    rw [← hm, h1]
    rfl
  · intro h2
    unfold ExactNameResolver.resolveChain
    rw [← hm]
    have hne : mtch.isEmpty = false := by
      cases mtch with
      | nil => simp at h2
      | cons x xs => rfl
    have hlen : mtch.length ≠ 1 := by omega
    simp only [hne, Bool.false_eq_true, if_false, if_neg hlen]

/-- Witness for C6 at the John Smith chain: the match set is {122, 124} and
the resolver narrows the candidates to it. -/
theorem claim_c6_witness :
    ([ent122, ent124] = chainJohn.candidates.filter
      (fun cand => ExactNameResolver.ciIntersects (MentionChain.names chainJohn) cand.names))
    ∧ ((∀ cand, cand ∈ [ent122, ent124] ↔ cand ∈ chainJohn.candidates
          ∧ ∃ m ∈ chainJohn.mentions, ∃ nm ∈ cand.names, pyLower m.string = pyLower nm)
      ∧ (([ent122, ent124] : List Entity) = [] →
          ExactNameResolver.resolveChain chainJohn = chainJohn)
      ∧ (∀ e, ([ent122, ent124] : List Entity) = [e] →
          ExactNameResolver.resolveChain chainJohn = { chainJohn with entity := some e })
      ∧ (2 ≤ ([ent122, ent124] : List Entity).length →
          ExactNameResolver.resolveChain chainJohn
            = { chainJohn with candidates := [ent122, ent124] })
      ∧ ExactNameResolver.resolveChain chainJohn
          = { chainJohn with candidates := [ent122, ent124] }
      ∧ (ExactNameResolver.resolveChain chainJohn).entity = none) :=
  ⟨by decide, claim_c6_exact_name_resolver chainJohn [ent122, ent124] (by decide)⟩

/-- C6 counterexample to the claim as stated: a chain whose only mention
string matches nothing but whose transliteration is John Smith.  The source
resolver leaves the chain untouched (entity none), while the claim's
intersection including transliterated variants would select candidate 122. -/
theorem claim_c6_counterexample :
    ExactNameResolver.resolveChain chainXq = chainXq
    ∧ (ExactNameResolver.resolveChain chainXq).entity = none
    ∧ (ExactNameResolver.spec_resolveChain chainXq).entity = some ent122 := by
  decide

/-- C4 (amended: the new chain concatenates the de-duplicated merged chains'
mention lists in the set's iteration order, preserving each merged chain's
internal mention order but not interleaving mentions of different chains into
document order): for every admissible iteration order of the merged set, the
merge keeps the chains outside the merged set unchanged and in order,
replaces the merged ones by exactly one fresh chain appended at the end, the
new chain's mentions are a permutation of the concatenated mentions of the
distinct merged chains, and every merged chain's mention list occurs in the
new chain's mentions in its original relative order. -/
theorem claim_c4_merge (chains to_merge ord : List MentionChain)
    (hord : CorefStage.SetOrder to_merge ord)
    (h2 : 2 ≤ to_merge.dedup.length) :
    CorefStage.merge chains ord
      = chains.filter (fun c => decide (c ∉ to_merge))
        ++ [⟨(ord.map (fun c => c.mentions)).flatten, [], none⟩]
    ∧ (CorefStage.merge chains ord).length
        = (chains.filter (fun c => decide (c ∉ to_merge))).length + 1
    ∧ ((ord.map (fun c => c.mentions)).flatten).Perm
        ((to_merge.dedup.map (fun c => c.mentions)).flatten)
    ∧ ∀ c ∈ to_merge, c.mentions.Sublist ((ord.map (fun c => c.mentions)).flatten) := by
  have _h2 := h2
  have hfil : chains.filter (fun c => decide (c ∉ ord))
      = chains.filter (fun c => decide (c ∉ to_merge)) := by
    apply List.filter_congr
    intro c _
    rw [decide_eq_decide]
    exact not_congr (hord.2 c)
  have heq : CorefStage.merge chains ord
      = chains.filter (fun c => decide (c ∉ to_merge))
        ++ [⟨(ord.map (fun c => c.mentions)).flatten, [], none⟩] := by
    unfold CorefStage.merge
    rw [hfil]
  refine ⟨heq, ?_, ?_, ?_⟩
  · rw [heq]
    simp
  · have hperm : ord.Perm to_merge.dedup := by
      refine (List.perm_ext_iff_of_nodup hord.1 (List.nodup_dedup to_merge)).mpr ?_
      intro c
      rw [List.mem_dedup]
      exact hord.2 c
    exact (hperm.map (fun c => c.mentions)).flatten
  · intro c hc
    refine List.sublist_flatten_of_mem ?_
    exact List.mem_map.mpr ⟨c, (hord.2 c).mpr hc, rfl⟩

/-- Witness for C4: merging the two concrete chains in the identity order. -/
theorem claim_c4_witness :
    (CorefStage.SetOrder [chainAC, chainB] [chainAC, chainB]
      ∧ 2 ≤ ([chainAC, chainB] : List MentionChain).dedup.length)
    ∧ (CorefStage.merge [chainAC, chainB] [chainAC, chainB]
        = ([chainAC, chainB].filter (fun c => decide (c ∉ [chainAC, chainB])))
          ++ [⟨(([chainAC, chainB].map (fun c => c.mentions)).flatten), [], none⟩]
      ∧ (CorefStage.merge [chainAC, chainB] [chainAC, chainB]).length
          = (([chainAC, chainB] : List MentionChain).filter
              (fun c => decide (c ∉ [chainAC, chainB]))).length + 1
      ∧ ((([chainAC, chainB] : List MentionChain).map (fun c => c.mentions)).flatten).Perm
          ((([chainAC, chainB] : List MentionChain).dedup.map (fun c => c.mentions)).flatten)
      ∧ ∀ c ∈ [chainAC, chainB],
          c.mentions.Sublist ((([chainAC, chainB] : List MentionChain).map
            (fun c => c.mentions)).flatten)) :=
  ⟨⟨⟨by decide, fun c => Iff.rfl⟩, by decide⟩,
    claim_c4_merge [chainAC, chainB] [chainAC, chainB] [chainAC, chainB]
      ⟨by decide, fun c => Iff.rfl⟩ (by decide)⟩

/-- C4 counterexample to the claim as stated: chains [mentA, mentC] and
[mentB] with document positions mentA < mentB < mentC.  Under either of the
two admissible set iteration orders, the merged chain's mention list is a
whole-chain concatenation, not the order of first appearance
[mentA, mentB, mentC] that the claim asserts. -/
theorem claim_c4_counterexample :
    (CorefStage.merge [chainAC, chainB] [chainAC, chainB]).map (fun c => c.mentions)
        = [[mentA, mentC, mentB]]
    ∧ (CorefStage.merge [chainAC, chainB] [chainB, chainAC]).map (fun c => c.mentions)
        = [[mentB, mentA, mentC]]
    ∧ [mentA, mentC, mentB] ≠ [mentA, mentB, mentC]
    ∧ [mentB, mentA, mentC] ≠ [mentA, mentB, mentC] := by
  decide

theorem CascadeResolver.inputs_all_none (rs : List CascadeResolver.ChildResolver) :
    ∀ (cs : List MentionChain), (∀ c ∈ cs, c.entity = none) →
      ∀ l ∈ CascadeResolver.inputs rs cs, ∀ c ∈ l, c.entity = none := by
  induction rs with
  | nil =>
    intro cs _ l hl
    cases hl
  | cons r rs ih =>
    intro cs hcs l hl
    unfold CascadeResolver.inputs at hl
    rcases List.mem_cons.mp hl with rfl | hl'
    · exact hcs
    · by_cases he : ((r cs).filter (fun c => c.entity.isNone)).isEmpty
      · rw [if_pos he] at hl'
        cases hl'
      · rw [if_neg he] at hl'
        refine ih _ ?_ l hl'
        intro c hc
        exact Option.isNone_iff_eq_none.mp (List.mem_filter.mp hc).2

theorem CascadeResolver.mem_run_resolved (rs : List CascadeResolver.ChildResolver) :
    ∀ (cs : List MentionChain), ∀ c ∈ (CascadeResolver.run rs cs).2,
      c.entity.isSome = true := by
  induction rs with
  | nil =>
    intro cs c hc
    cases hc
  | cons r rs ih =>
    intro cs c hc
    unfold CascadeResolver.run at hc
    by_cases he : ((r cs).filter (fun c => c.entity.isNone)).isEmpty
    · rw [if_pos he] at hc
      exact (List.mem_filter.mp hc).2
    · rw [if_neg he] at hc
      rcases List.mem_append.mp hc with hc1 | hc2
      · exact (List.mem_filter.mp hc1).2
      · exact ih _ c hc2

theorem CascadeResolver.run_cons (r : CascadeResolver.ChildResolver)
    (rs : List CascadeResolver.ChildResolver) (cs : List MentionChain) :
    CascadeResolver.run (r :: rs) cs =
      if ((r cs).filter (fun c => c.entity.isNone)).isEmpty
      then ((r cs).filter (fun c => c.entity.isNone),
            (r cs).filter (fun c => c.entity.isSome))
      else ((CascadeResolver.run rs ((r cs).filter (fun c => c.entity.isNone))).1,
            (r cs).filter (fun c => c.entity.isSome)
              ++ (CascadeResolver.run rs ((r cs).filter (fun c => c.entity.isNone))).2) := by
  rfl

theorem CascadeResolver.resolve_key_perm (rs : List CascadeResolver.ChildResolver)
    (hperm : ∀ r ∈ rs, ∀ cs : List MentionChain,
      ((r cs).map (fun c => c.mentions)).Perm (cs.map (fun c => c.mentions))) :
    ∀ (chains : List MentionChain),
      ((CascadeResolver.resolve rs chains).map (fun c => c.mentions)).Perm
        (chains.map (fun c => c.mentions)) := by
  induction rs with
  | nil =>
    intro chains
    simp [CascadeResolver.resolve, CascadeResolver.run]
  | cons r rs ih =>
    intro chains
    have hr := hperm r (List.mem_cons_self r rs)
    have hsplit : (((r chains).filter (fun c => c.entity.isSome))
        ++ ((r chains).filter (fun c => c.entity.isNone))).Perm (r chains) := by
      have := List.filter_append_perm (fun c : MentionChain => c.entity.isSome) (r chains)
      have hnn : ((r chains).filter (fun c => !c.entity.isSome))
          = ((r chains).filter (fun c => c.entity.isNone)) := by
        apply List.filter_congr
        intro c _
        cases hc : c.entity <;> simp
      rwa [hnn] at this
    unfold CascadeResolver.resolve
    rw [CascadeResolver.run_cons]
    by_cases he : ((r chains).filter (fun c => c.entity.isNone)).isEmpty
    · simp only [if_pos he]
      have hnil : (r chains).filter (fun c => c.entity.isNone) = [] :=
        List.isEmpty_iff.mp he
      rw [hnil]
      have h4 : ((r chains).filter (fun c => c.entity.isSome)).Perm (r chains) := by
        rw [hnil, List.append_nil] at hsplit
        exact hsplit
      simp only [List.nil_append]
      exact ((h4.map _).trans (hr chains))
    · simp only [if_neg he]
      have ihrem := ih (fun r' hr' => hperm r' (List.mem_cons_of_mem r hr'))
        ((r chains).filter (fun c => c.entity.isNone))
      unfold CascadeResolver.resolve at ihrem
      have h1 := (List.perm_append_comm_assoc
          (CascadeResolver.run rs ((r chains).filter (fun c => c.entity.isNone))).1
          ((r chains).filter (fun c => c.entity.isSome))
          (CascadeResolver.run rs ((r chains).filter (fun c => c.entity.isNone))).2).map
        (fun c => c.mentions)
      have h2 : ((((r chains).filter (fun c => c.entity.isSome))
            ++ ((CascadeResolver.run rs ((r chains).filter (fun c => c.entity.isNone))).1
              ++ (CascadeResolver.run rs ((r chains).filter (fun c => c.entity.isNone))).2)).map
            (fun c => c.mentions)).Perm
          ((((r chains).filter (fun c => c.entity.isSome))
            ++ ((r chains).filter (fun c => c.entity.isNone))).map (fun c => c.mentions)) := by
        rw [List.map_append, List.map_append, List.map_append]
        rw [List.map_append] at ihrem
        exact List.Perm.append_left _ ihrem
      exact (h1.trans (h2.trans ((hsplit.map _).trans (hr chains))))

/-- C7: for every cascade run whose child resolvers preserve the chain set
(identified by mention content): the chain set after the run is a permutation
of the set before it; every working list handed to a resolver after the first
holds only chains with no entity (chains resolved earlier were set aside, so
no later resolver re-examines them); and every set-aside resolved chain
reappears unchanged, entity included, in the final document list. -/
theorem claim_c7_cascade_resolver (rs : List CascadeResolver.ChildResolver)
    (chains : List MentionChain)
    (hperm : ∀ r ∈ rs, ∀ cs : List MentionChain,
      ((r cs).map (fun c => c.mentions)).Perm (cs.map (fun c => c.mentions))) :
    ((CascadeResolver.resolve rs chains).map (fun c => c.mentions)).Perm
        (chains.map (fun c => c.mentions))
    ∧ (∀ l ∈ (CascadeResolver.inputs rs chains).drop 1, ∀ c ∈ l, c.entity = none)
    ∧ (∀ c ∈ (CascadeResolver.run rs chains).2,
        c.entity.isSome = true ∧ c ∈ CascadeResolver.resolve rs chains) := by
  refine ⟨CascadeResolver.resolve_key_perm rs hperm chains, ?_, ?_⟩
  · cases rs with
    | nil =>
      intro l hl
      cases hl
    | cons r rs =>
      intro l hl
      unfold CascadeResolver.inputs at hl
      rw [List.drop_one, List.tail_cons] at hl
      by_cases he : ((r chains).filter (fun c => c.entity.isNone)).isEmpty
      · rw [if_pos he] at hl
        cases hl
      · rw [if_neg he] at hl
        refine CascadeResolver.inputs_all_none rs _ ?_ l hl
        intro c hc
        exact Option.isNone_iff_eq_none.mp (List.mem_filter.mp hc).2
  · intro c hc
    exact ⟨CascadeResolver.mem_run_resolved rs chains c hc,
      List.mem_append_right _ hc⟩

/-- Witness for C7: a one-stage cascade of the embedded FirstResolver over
one chain with a candidate, applying the cascade theorem. -/
theorem claim_c7_witness :
    ((∀ r ∈ [FirstResolver.resolve], ∀ cs : List MentionChain,
        ((r cs).map (fun c => c.mentions)).Perm (cs.map (fun c => c.mentions)))
    ∧ (((CascadeResolver.resolve [FirstResolver.resolve] [chainJohn]).map
          (fun c => c.mentions)).Perm ([chainJohn].map (fun c => c.mentions))
      ∧ (∀ l ∈ (CascadeResolver.inputs [FirstResolver.resolve] [chainJohn]).drop 1,
          ∀ c ∈ l, c.entity = none)
      ∧ (∀ c ∈ (CascadeResolver.run [FirstResolver.resolve] [chainJohn]).2,
          c.entity.isSome = true
            ∧ c ∈ CascadeResolver.resolve [FirstResolver.resolve] [chainJohn]))) :=
  have hp : ∀ r ∈ [FirstResolver.resolve], ∀ cs : List MentionChain,
      ((r cs).map (fun c => c.mentions)).Perm (cs.map (fun c => c.mentions)) := by
    intro r hr cs
    rcases List.mem_singleton.mp hr with rfl
    have : (FirstResolver.resolve cs).map (fun c => c.mentions)
        = cs.map (fun c => c.mentions) := by
      unfold FirstResolver.resolve
      rw [List.map_map]
      apply List.map_congr_left
      intro c _
      obtain ⟨ms, cands, ent⟩ := c
      cases cands <;> rfl
    rw [this]
  ⟨hp, claim_c7_cascade_resolver [FirstResolver.resolve] [chainJohn] hp⟩

theorem CascadeGenerator.mem_keys_insertAll (g : List Entity) :
    ∀ (d : PyDict PyStr Entity) (k : PyStr), k ∈ PyDict.keys d →
      k ∈ PyDict.keys (g.foldl (fun d e => PyDict.set d e.id e) d) := by
  induction g with
  | nil => intro d k hk; exact hk
  | cons e g ih =>
    intro d k hk
    rw [List.foldl_cons]
    exact ih _ k ((PyDict.mem_keys_set d e.id e k).mpr (Or.inl hk))

theorem CascadeGenerator.mem_keys_insertAll_self (g : List Entity) :
    ∀ (d : PyDict PyStr Entity) (e : Entity), e ∈ g →
      e.id ∈ PyDict.keys (g.foldl (fun d e => PyDict.set d e.id e) d) := by
  induction g with
  | nil => intro d e he; cases he
  | cons a g ih =>
    intro d e he
    rw [List.foldl_cons]
    rcases List.mem_cons.mp he with rfl | he'
    · exact CascadeGenerator.mem_keys_insertAll g _ e.id
        ((PyDict.mem_keys_set d e.id e e.id).mpr (Or.inr rfl))
    · exact ih _ e he'

theorem CascadeGenerator.mem_keys_steps (T : Nat) (gs : List (List Entity)) :
    ∀ (d : PyDict PyStr Entity) (k : PyStr), k ∈ PyDict.keys d →
      k ∈ PyDict.keys (CascadeGenerator.steps T gs d).1 := by
  induction gs with
  | nil => intro d k hk; exact hk
  | cons g gs ih =>
    intro d k hk
    unfold CascadeGenerator.steps
    have hk' := CascadeGenerator.mem_keys_insertAll g d k hk
    by_cases hT : T ≤ (g.foldl (fun d e => PyDict.set d e.id e) d).length
    · rw [if_pos hT]
      exact hk'
    · rw [if_neg hT]
      exact ih _ k hk'

theorem CascadeGenerator.steps_prefix_le (T : Nat) (gs : List (List Entity)) :
    ∀ (d : PyDict PyStr Entity), d.length ≤ T →
      ∀ i, i < (CascadeGenerator.steps T gs d).2 →
        ((gs.take i).foldl (fun d g => g.foldl (fun d e => PyDict.set d e.id e) d) d).length
          ≤ T := by
  induction gs with
  | nil =>
    intro d _ i hi
    simp [CascadeGenerator.steps] at hi
  | cons g gs ih =>
    intro d hd i hi
    unfold CascadeGenerator.steps at hi
    cases i with
    | zero => simpa using hd
    | succ j =>
      by_cases hT : T ≤ (g.foldl (fun d e => PyDict.set d e.id e) d).length
      · rw [if_pos hT] at hi
        omega
      · rw [if_neg hT] at hi
        simp only at hi
        have hj : j < (CascadeGenerator.steps T gs
            (g.foldl (fun d e => PyDict.set d e.id e) d)).2 := by omega
        have := ih (g.foldl (fun d e => PyDict.set d e.id e) d) (by omega) j hj
        simpa using this

theorem CascadeGenerator.steps_mem_final (T : Nat) (gs : List (List Entity)) :
    ∀ (d : PyDict PyStr Entity) (i : Nat) (gi : List Entity),
      gs.get? i = some gi → i < (CascadeGenerator.steps T gs d).2 →
        ∀ e ∈ gi, e.id ∈ PyDict.keys (CascadeGenerator.steps T gs d).1 := by
  induction gs with
  | nil =>
    intro d i gi hgi _ e _
    cases hgi
  | cons g gs ih =>
    intro d i gi hgi hi e he
    unfold CascadeGenerator.steps
    cases i with
    | zero =>
      injection hgi with hgi
      subst hgi
      have hme := CascadeGenerator.mem_keys_insertAll_self g d e he
      by_cases hT : T ≤ (g.foldl (fun d e => PyDict.set d e.id e) d).length
      · rw [if_pos hT]
        exact hme
      · rw [if_neg hT]
        exact CascadeGenerator.mem_keys_steps T gs _ e.id hme
    | succ j =>
      unfold CascadeGenerator.steps at hi
      by_cases hT : T ≤ (g.foldl (fun d e => PyDict.set d e.id e) d).length
      · rw [if_pos hT] at hi
        omega
      · rw [if_neg hT]
        rw [if_neg hT] at hi
        simp only at hi
        exact ih _ j gi hgi (by omega) e he

theorem PyDict.mem_values_of_mem_keys {κ β : Type} [DecidableEq κ]
    (d : PyDict κ β) (k : κ) (h : k ∈ PyDict.keys d) :
    ∃ v ∈ PyDict.values d, ∃ p ∈ d, p.1 = k ∧ p.2 = v := by
  rcases List.mem_map.mp h with ⟨p, hp, hk⟩
  exact ⟨p.2, List.mem_map.mpr ⟨p, hp, rfl⟩, p, hp, hk, rfl⟩

/-- C8: in the candidate cascade with threshold T, a child generator is
queried only while the unique candidate count accumulated from the earlier
generators is at most T (the loop breaks as soon as the count reaches T, so
in particular no generator runs once the count exceeds T), and every entity
returned by a queried generator is present, by its id, in the final combined
candidate list. -/
theorem claim_c8_cascade_generator (gens : List (List Entity)) (T : Nat) (i : Nat)
    (hq : i < CascadeGenerator.queried gens T) :
    (CascadeGenerator.accum (gens.take i)).length ≤ T
    ∧ (∀ gi, gens.get? i = some gi → ∀ e ∈ gi,
        e.id ∈ PyDict.keys (CascadeGenerator.steps T gens PyDict.empty).1
        ∧ ∃ cand ∈ CascadeGenerator.find gens T, cand.id = e.id) := by
  constructor
  · exact CascadeGenerator.steps_prefix_le T gens PyDict.empty (by simp [PyDict.empty]) i hq
  · intro gi hgi e he
    have hk := CascadeGenerator.steps_mem_final T gens PyDict.empty i gi hgi hq e he
    refine ⟨hk, ?_⟩
    rcases PyDict.mem_values_of_mem_keys _ e.id hk with ⟨v, hv, p, hp, hpk, hpv⟩
    refine ⟨v, hv, ?_⟩
    have hkeyval : ∀ q ∈ (CascadeGenerator.steps T gens (PyDict.empty (κ := PyStr) (β := Entity))).1,
        q.2.id = q.1 := by
      have hstep : ∀ (g : List Entity) (d : PyDict PyStr Entity),
          (∀ q ∈ d, q.2.id = q.1) →
          ∀ q ∈ g.foldl (fun d e => PyDict.set d e.id e) d, q.2.id = q.1 := by
        intro g
        induction g with
        | nil => intro d hd q hq2; exact hd q hq2
        | cons a g ihg =>
          intro d hd q hq2
          rw [List.foldl_cons] at hq2
          refine ihg _ ?_ q hq2
          intro q' hq'
          unfold PyDict.set at hq'
          by_cases hh : PyDict.hasKey d a.id
          · rw [if_pos hh] at hq'
            rcases List.mem_map.mp hq' with ⟨q0, hq0, hback⟩
            by_cases h0 : q0.1 = a.id
            · rw [if_pos h0] at hback
              rw [← hback]
            · rw [if_neg h0] at hback
              rw [← hback]
              exact hd q0 hq0
          · rw [if_neg hh] at hq'
            rcases List.mem_append.mp hq' with hin | hone
            · exact hd q' hin
            · rcases List.mem_singleton.mp hone with rfl
              rfl
      have hgen : ∀ (gs : List (List Entity)) (d : PyDict PyStr Entity),
          (∀ q ∈ d, q.2.id = q.1) →
          ∀ q ∈ (CascadeGenerator.steps T gs d).1, q.2.id = q.1 := by
        intro gs
        induction gs with
        | nil => intro d hd q hq2; exact hd q hq2
        | cons g gs ihs =>
          intro d hd q hq2
          unfold CascadeGenerator.steps at hq2
          by_cases hT : T ≤ (g.foldl (fun d e => PyDict.set d e.id e) d).length
          · rw [if_pos hT] at hq2
            exact hstep g d hd q hq2
          · rw [if_neg hT] at hq2
            exact ihs _ (hstep g d hd) q hq2
      exact hgen gens PyDict.empty (fun q hq2 => absurd hq2 (List.not_mem_nil q))
    have := hkeyval p hp
    rw [hpv] at this
    rw [this, hpk]

/-- Witness for C8: two one-entity generators with threshold 1; the first is
queried with zero accumulated candidates and its entity reaches the result. -/
theorem claim_c8_witness :
    (0 < CascadeGenerator.queried [[entAA], [entBAAB]] 1)
    ∧ ((CascadeGenerator.accum (([[entAA], [entBAAB]] : List (List Entity)).take 0)).length ≤ 1
      ∧ (∀ gi, ([[entAA], [entBAAB]] : List (List Entity)).get? 0 = some gi → ∀ e ∈ gi,
          e.id ∈ PyDict.keys (CascadeGenerator.steps 1 [[entAA], [entBAAB]] PyDict.empty).1
          ∧ ∃ cand ∈ CascadeGenerator.find [[entAA], [entBAAB]] 1, cand.id = e.id)) :=
  ⟨by decide, claim_c8_cascade_generator [[entAA], [entBAAB]] 1 0 (by decide)⟩

theorem NgramMemoryNameIndex.mem_gram_fold (nid : NameId) (L : List PyStr) :
    ∀ (d : PyDict PyStr (List NameId)) (g : PyStr) (x : NameId),
      x ∈ ((PyDict.get? (L.foldl
            (fun d g => PyDict.set d g (((PyDict.get? d g).getD []) ++ [nid])) d) g).getD [])
      → x ∈ ((PyDict.get? d g).getD []) ∨ (x = nid ∧ g ∈ L) := by
  induction L with
  | nil =>
    intro d g x h
    exact Or.inl h
  | cons a L ih =>
    intro d g x h
    rw [List.foldl_cons] at h
    rcases ih _ g x h with h' | h'
    · rw [PyDict.get?_set] at h'
      by_cases hg : g = a
      · rw [if_pos hg] at h'
        simp only [Option.getD_some, List.mem_append, List.mem_singleton] at h'
        rcases h' with h'' | rfl
        · refine Or.inl ?_
          rw [hg]
          exact h''
        · exact Or.inr ⟨rfl, hg ▸ List.mem_cons_self a L⟩
      · rw [if_neg hg] at h'
        exact Or.inl h'
    · exact Or.inr ⟨h'.1, List.mem_cons_of_mem a h'.2⟩

theorem NgramMemoryNameIndex.mem_addNameNgrams (n : Nat) (nid : NameId) (fname : PyStr)
    (d : PyDict PyStr (List NameId)) (g : PyStr) (x : NameId)
    (h : x ∈ ((PyDict.get? (NgramMemoryNameIndex.addNameNgrams d n nid fname) g).getD [])) :
    x ∈ ((PyDict.get? d g).getD []) ∨ (x = nid ∧ g ∈ ngrams fname n) :=
  NgramMemoryNameIndex.mem_gram_fold nid (ngrams fname n) d g x h

theorem NgramMemoryNameIndex.mem_buildStep (e : Entity) (n : Nat)
    (lp : List (Nat × PyStr)) :
    ∀ (acc : List PyStr × TypeIndex (List NameId)) (t : EntityType) (g : PyStr) (x : NameId),
      x ∈ ((PyDict.get? ((lp.foldl
          (fun acc inm =>
            let low := pyLower inm.2
            let all := if low ∈ acc.1 then acc.1 else acc.1 ++ [low]
            let d := NgramMemoryNameIndex.addNameNgrams (acc.2 e.type) n (e.id, inm.1)
              (NgramMemoryNameIndex.format_string inm.2)
            (all, TypeIndex.update acc.2 e.type d)) acc).2 t) g).getD [])
      → x ∈ ((PyDict.get? (acc.2 t) g).getD [])
        ∨ (e.type = t ∧ ∃ inm ∈ lp, x = (e.id, inm.1)
            ∧ g ∈ ngrams (NgramMemoryNameIndex.format_string inm.2) n) := by
  induction lp with
  | nil =>
    intro acc t g x h
    exact Or.inl h
  | cons inm lp ih =>
    intro acc t g x h
    rw [List.foldl_cons] at h
    rcases ih _ t g x h with h' | h'
    · by_cases ht : e.type = t
      · subst ht
        have hupd : ∀ (a : List PyStr × TypeIndex (List NameId)) s,
            (TypeIndex.update a.2 e.type s) e.type = s := by
          intro a s
          unfold TypeIndex.update
          rw [if_pos rfl]
        simp only [hupd] at h'
        rcases NgramMemoryNameIndex.mem_addNameNgrams n (e.id, inm.1)
            (NgramMemoryNameIndex.format_string inm.2) _ g x h' with h'' | h''
        · exact Or.inl h''
        · exact Or.inr ⟨rfl, inm, List.mem_cons_self inm lp, h''.1, h''.2⟩
      · have hupd : ∀ (a : List PyStr × TypeIndex (List NameId)) s,
            (TypeIndex.update a.2 e.type s) t = a.2 t := by
          intro a s
          unfold TypeIndex.update
          rw [if_neg (fun hh => ht hh.symm)]
        simp only [hupd] at h'
        exact Or.inl h'
    · rcases h' with ⟨ht, inm', hinm', hrest⟩
      exact Or.inr ⟨ht, inm', List.mem_cons_of_mem inm hinm', hrest⟩

theorem NgramMemoryNameIndex.mem_build_fold (n : Nat) (es : List Entity) :
    ∀ (acc : List PyStr × TypeIndex (List NameId)) (t : EntityType) (g : PyStr) (x : NameId),
      x ∈ ((PyDict.get? ((es.foldl (NgramMemoryNameIndex.buildStep n) acc).2 t) g).getD [])
      → x ∈ ((PyDict.get? (acc.2 t) g).getD [])
        ∨ ∃ e ∈ es, e.type = t ∧ ∃ inm ∈ e.names.enum, x = (e.id, inm.1)
            ∧ g ∈ ngrams (NgramMemoryNameIndex.format_string inm.2) n := by
  induction es with
  | nil =>
    intro acc t g x h
    exact Or.inl h
  | cons e es ih =>
    intro acc t g x h
    rw [List.foldl_cons] at h
    rcases ih _ t g x h with h' | h'
    · rcases NgramMemoryNameIndex.mem_buildStep e n e.names.enum acc t g x h' with h'' | h''
      · exact Or.inl h''
      · exact Or.inr ⟨e, List.mem_cons_self e es, h''.1, h''.2⟩
    · rcases h' with ⟨e', he', rest⟩
      exact Or.inr ⟨e', List.mem_cons_of_mem e he', rest⟩

theorem NgramMemoryNameIndex.mem_posting_build (kb : MemoryKB) (n : Nat)
    (t : EntityType) (g : PyStr) (x : NameId)
    (h : x ∈ NgramMemoryNameIndex.posting (NgramMemoryNameIndex.build_index kb n) t g) :
    ∃ e ∈ MemoryKB.entityList kb, e.type = t ∧ ∃ inm ∈ e.names.enum, x = (e.id, inm.1)
      ∧ g ∈ ngrams (NgramMemoryNameIndex.format_string inm.2) n := by
  unfold NgramMemoryNameIndex.posting NgramMemoryNameIndex.build_index at h
  rcases NgramMemoryNameIndex.mem_build_fold n (MemoryKB.entityList kb)
      ([], fun _ => PyDict.empty) t g x h with h' | h'
  · cases h'
  · exact h'

theorem NgramMemoryNameIndex.massDict_empty (data : NgramMemoryNameIndex.Data)
    (w : Nat → Nat → ℚ) (t : EntityType) (gs : List PyStr)
    (h : ∀ g ∈ gs, NgramMemoryNameIndex.posting data t g = []) :
    NgramMemoryNameIndex.massDict data w t gs = [] := by
  unfold NgramMemoryNameIndex.massDict
  have key : ∀ (gl : List PyStr), (∀ g ∈ gl,
      NgramMemoryNameIndex.posting data t g = []) →
      ∀ (m : PyDict NgramMemoryNameIndex.NameId ℚ),
      gl.foldl (fun m g =>
        let nids := NgramMemoryNameIndex.posting data t g
        if nids.length = 0 then m
        else nids.foldl (fun m nid =>
          PyDict.set m nid (((PyDict.get? m nid).getD 0)
            + w data.num_unique_names nids.length)) m) m = m := by
    intro gl
    induction gl with
    | nil =>
      intro _ m
      rfl
    | cons g gl ihg =>
      intro hall m
      rw [List.foldl_cons]
      have hg : NgramMemoryNameIndex.posting data t g = [] :=
        hall g (List.mem_cons_self g gl)
      simp only [hg, List.length_nil, if_pos rfl]
      exact ihg (fun g' hg' => hall g' (List.mem_cons_of_mem g hg')) m
  exact key gs h PyDict.empty

theorem NgramMemoryNameIndex.find_of_massDict_empty (kb : MemoryKB)
    (data : NgramMemoryNameIndex.Data) (w : Nat → Nat → ℚ) (n : Nat)
    (name : PyStr) (t : EntityType) (limit : Nat)
    (h : NgramMemoryNameIndex.massDict data w t
        (ngrams (NgramMemoryNameIndex.format_string name) n) = []) :
    NgramMemoryNameIndex.find kb data w n name t limit = [] := by
  unfold NgramMemoryNameIndex.find
  simp only [h]
  rfl

/-- C9: a name absent from the index is found with an empty result and no
exception (the embedding is total): if no entity of the queried type bears
the name case-insensitively, the exact-match index returns []; if no n-gram
of the formatted query occurs in any same-type indexed name, the n-gram index
returns []. -/
theorem claim_c9_unknown_name (es : List Entity) (n : Nat) (name : PyStr)
    (t : EntityType) (limit : Nat) (w : Nat → Nat → ℚ)
    (hnd : (es.map Entity.id).Nodup)
    (hexact : ∀ e ∈ es, e.type = t → ∀ nm ∈ e.names, pyLower nm ≠ pyLower name)
    (hngram : ∀ e ∈ es, e.type = t → ∀ nm ∈ e.names,
        ∀ g ∈ ngrams (NgramMemoryNameIndex.format_string name) n,
          g ∉ ngrams (NgramMemoryNameIndex.format_string nm) n) :
    ExactMatchMemoryNameIndex.find (MemoryKB.ofList es)
      (ExactMatchMemoryNameIndex.build_index (MemoryKB.ofList es)) name t limit = []
    ∧ NgramMemoryNameIndex.find (MemoryKB.ofList es)
      (NgramMemoryNameIndex.build_index (MemoryKB.ofList es) n) w n name t limit = [] := by
  constructor
  · rw [ExactMatchMemoryNameIndex.find_eq_get_entities]
    have hids : ExactMatchMemoryNameIndex.idsFor
        (ExactMatchMemoryNameIndex.build_index (MemoryKB.ofList es)) t name = [] := by
      rw [List.eq_nil_iff_forall_not_mem]
      intro i hi
      rw [ExactMatchMemoryNameIndex.mem_idsFor_build_index,
        MemoryKB.entityList_ofList es hnd] at hi
      rcases hi with ⟨e, he, _, ht, nm, hnm, hl⟩
      exact hexact e he ht nm hnm hl
    rw [hids]
    rfl
  · refine NgramMemoryNameIndex.find_of_massDict_empty _ _ _ _ _ _ _ ?_
    refine NgramMemoryNameIndex.massDict_empty _ _ _ _ ?_
    intro g hg
    rw [List.eq_nil_iff_forall_not_mem]
    intro x hx
    rcases NgramMemoryNameIndex.mem_posting_build (MemoryKB.ofList es) n t g x hx
      with ⟨e, he, ht, inm, hinm, _, hgm⟩
    rw [MemoryKB.entityList_ofList es hnd] at he
    exact hngram e he ht inm.2 (List.snd_mem_of_mem_enum hinm) g hg hgm

/-- Witness for C9: a one-entity PER KB named aa, queried for the unrelated
name zz. -/
theorem claim_c9_witness :
    ((([entAA].map Entity.id).Nodup)
      ∧ (∀ e ∈ [entAA], e.type = EntityType.PER →
          ∀ nm ∈ e.names, pyLower nm ≠ pyLower ("zz".toList))
      ∧ (∀ e ∈ [entAA], e.type = EntityType.PER → ∀ nm ∈ e.names,
          ∀ g ∈ ngrams (NgramMemoryNameIndex.format_string ("zz".toList)) 4,
            g ∉ ngrams (NgramMemoryNameIndex.format_string nm) 4))
    ∧ (ExactMatchMemoryNameIndex.find (MemoryKB.ofList [entAA])
        (ExactMatchMemoryNameIndex.build_index (MemoryKB.ofList [entAA]))
        ("zz".toList) EntityType.PER 25 = []
      ∧ NgramMemoryNameIndex.find (MemoryKB.ofList [entAA])
        (NgramMemoryNameIndex.build_index (MemoryKB.ofList [entAA]) 4) unitW 4
        ("zz".toList) EntityType.PER 25 = []) :=
  ⟨⟨by decide, by decide, by decide⟩,
    claim_c9_unknown_name [entAA] 4 ("zz".toList) EntityType.PER 25 unitW
      (by decide) (by decide) (by decide)⟩

theorem NgramMemoryNameIndex.innerMass_getD (idf : ℚ) (nids : List NameId) :
    ∀ (m : PyDict NameId ℚ) (x : NameId),
      ((PyDict.get? (nids.foldl (fun m nid =>
          PyDict.set m nid (((PyDict.get? m nid).getD 0) + idf)) m) x).getD 0)
        = ((PyDict.get? m x).getD 0) + (nids.count x : ℚ) * idf := by
  induction nids with
  | nil =>
    intro m x
    simp
  | cons a nids ih =>
    intro m x
    rw [List.foldl_cons, ih, PyDict.get?_set]
    by_cases hx : x = a
    · rw [if_pos hx, hx, List.count_cons]
      simp only [Option.getD_some, beq_self_eq_true, if_true]
      push_cast
      ring
    · rw [if_neg hx, List.count_cons]
      have : (a == x) = false := by
        simp only [beq_eq_false_iff_ne, ne_eq]
        exact fun h => hx h.symm
      rw [this]
      push_cast
      ring

theorem NgramMemoryNameIndex.innerMass_mem_keys (idf : ℚ) (nids : List NameId) :
    ∀ (m : PyDict NameId ℚ) (x : NameId),
      x ∈ PyDict.keys (nids.foldl (fun m nid =>
          PyDict.set m nid (((PyDict.get? m nid).getD 0) + idf)) m)
        ↔ x ∈ PyDict.keys m ∨ x ∈ nids := by
  induction nids with
  | nil =>
    intro m x
    simp
  | cons a nids ih =>
    intro m x
    rw [List.foldl_cons, ih, PyDict.mem_keys_set]
    constructor
    · rintro ((h | h) | h)
      · exact Or.inl h
      · exact Or.inr (h ▸ List.mem_cons_self a nids)
      · exact Or.inr (List.mem_cons_of_mem a h)
    · rintro (h | h)
      · exact Or.inl (Or.inl h)
      · rcases List.mem_cons.mp h with rfl | h'
        · exact Or.inl (Or.inr rfl)
        · exact Or.inr h'

theorem NgramMemoryNameIndex.innerMass_nodup (idf : ℚ) (nids : List NameId) :
    ∀ (m : PyDict NameId ℚ), (PyDict.keys m).Nodup →
      (PyDict.keys (nids.foldl (fun m nid =>
          PyDict.set m nid (((PyDict.get? m nid).getD 0) + idf)) m)).Nodup := by
  induction nids with
  | nil =>
    intro m hm
    exact hm
  | cons a nids ih =>
    intro m hm
    rw [List.foldl_cons]
    exact ih _ (PyDict.nodup_keys_set m a _ hm)

theorem NgramMemoryNameIndex.massFold_getD (data : NgramMemoryNameIndex.Data)
    (w : Nat → Nat → ℚ) (t : EntityType) (gs : List PyStr) :
    ∀ (m : PyDict NameId ℚ) (x : NameId),
      ((PyDict.get? (gs.foldl (fun m g =>
          let nids := NgramMemoryNameIndex.posting data t g
          if nids.length = 0 then m
          else nids.foldl (fun m nid =>
            PyDict.set m nid (((PyDict.get? m nid).getD 0)
              + w data.num_unique_names nids.length)) m) m) x).getD 0)
        = ((PyDict.get? m x).getD 0)
          + ((gs.map (fun g => ((NgramMemoryNameIndex.posting data t g).count x : ℚ)
              * w data.num_unique_names (NgramMemoryNameIndex.posting data t g).length)).sum) := by
  induction gs with
  | nil =>
    intro m x
    simp
  | cons g gs ih =>
    intro m x
    rw [List.foldl_cons]
    simp only [List.map_cons, List.sum_cons]
    by_cases h0 : (NgramMemoryNameIndex.posting data t g).length = 0
    · have hnil : NgramMemoryNameIndex.posting data t g = [] :=
        List.length_eq_zero.mp h0
      simp only [if_pos h0]
      rw [ih m x, hnil, List.count_nil]
      push_cast
      ring
    · simp only [if_neg h0, ih _ x,
        NgramMemoryNameIndex.innerMass_getD (w data.num_unique_names
          (NgramMemoryNameIndex.posting data t g).length)
          (NgramMemoryNameIndex.posting data t g) m x]
      ring

theorem NgramMemoryNameIndex.massFold_mem_keys (data : NgramMemoryNameIndex.Data)
    (w : Nat → Nat → ℚ) (t : EntityType) (gs : List PyStr) :
    ∀ (m : PyDict NameId ℚ) (x : NameId),
      x ∈ PyDict.keys (gs.foldl (fun m g =>
          let nids := NgramMemoryNameIndex.posting data t g
          if nids.length = 0 then m
          else nids.foldl (fun m nid =>
            PyDict.set m nid (((PyDict.get? m nid).getD 0)
              + w data.num_unique_names nids.length)) m) m)
        ↔ x ∈ PyDict.keys m ∨ ∃ g ∈ gs, x ∈ NgramMemoryNameIndex.posting data t g := by
  induction gs with
  | nil =>
    intro m x
    simp
  | cons g gs ih =>
    intro m x
    rw [List.foldl_cons]
    by_cases h0 : (NgramMemoryNameIndex.posting data t g).length = 0
    · have hnil : NgramMemoryNameIndex.posting data t g = [] :=
        List.length_eq_zero.mp h0
      simp only [if_pos h0, ih m x]
      constructor
      · rintro (h | h)
        · exact Or.inl h
        · rcases h with ⟨g', hg', hx⟩
          exact Or.inr ⟨g', List.mem_cons_of_mem g hg', hx⟩
      · rintro (h | ⟨g', hg', hx⟩)
        · exact Or.inl h
        · rcases List.mem_cons.mp hg' with rfl | hg''
          · rw [hnil] at hx
            cases hx
          · exact Or.inr ⟨g', hg'', hx⟩
    · simp only [if_neg h0, ih _ x, NgramMemoryNameIndex.innerMass_mem_keys]
      constructor
      · rintro ((h | h) | h)
        · exact Or.inl h
        · exact Or.inr ⟨g, List.mem_cons_self g gs, h⟩
        · rcases h with ⟨g', hg', hx⟩
          exact Or.inr ⟨g', List.mem_cons_of_mem g hg', hx⟩
      · rintro (h | ⟨g', hg', hx⟩)
        · exact Or.inl (Or.inl h)
        · rcases List.mem_cons.mp hg' with rfl | hg''
          · exact Or.inl (Or.inr hx)
          · exact Or.inr ⟨g', hg'', hx⟩

theorem NgramMemoryNameIndex.massFold_nodup (data : NgramMemoryNameIndex.Data)
    (w : Nat → Nat → ℚ) (t : EntityType) (gs : List PyStr) :
    ∀ (m : PyDict NameId ℚ), (PyDict.keys m).Nodup →
      (PyDict.keys (gs.foldl (fun m g =>
          let nids := NgramMemoryNameIndex.posting data t g
          if nids.length = 0 then m
          else nids.foldl (fun m nid =>
            PyDict.set m nid (((PyDict.get? m nid).getD 0)
              + w data.num_unique_names nids.length)) m) m)).Nodup := by
  induction gs with
  | nil =>
    intro m hm
    exact hm
  | cons g gs ih =>
    intro m hm
    rw [List.foldl_cons]
    by_cases h0 : (NgramMemoryNameIndex.posting data t g).length = 0
    · simp only [if_pos h0]
      exact ih m hm
    · simp only [if_neg h0]
      exact ih _ (NgramMemoryNameIndex.innerMass_nodup _ _ m hm)

theorem NgramMemoryNameIndex.massDict_getD (data : NgramMemoryNameIndex.Data)
    (w : Nat → Nat → ℚ) (t : EntityType) (gs : List PyStr) (x : NameId) :
    ((PyDict.get? (NgramMemoryNameIndex.massDict data w t gs) x).getD 0)
      = ((gs.map (fun g => ((NgramMemoryNameIndex.posting data t g).count x : ℚ)
          * w data.num_unique_names (NgramMemoryNameIndex.posting data t g).length)).sum) := by
  unfold NgramMemoryNameIndex.massDict
  rw [NgramMemoryNameIndex.massFold_getD data w t gs PyDict.empty x]
  simp [PyDict.empty, PyDict.get?_nil]

theorem NgramMemoryNameIndex.massDict_mem_keys (data : NgramMemoryNameIndex.Data)
    (w : Nat → Nat → ℚ) (t : EntityType) (gs : List PyStr) (x : NameId) :
    x ∈ PyDict.keys (NgramMemoryNameIndex.massDict data w t gs)
      ↔ ∃ g ∈ gs, x ∈ NgramMemoryNameIndex.posting data t g := by
  unfold NgramMemoryNameIndex.massDict
  rw [NgramMemoryNameIndex.massFold_mem_keys data w t gs PyDict.empty x]
  simp [PyDict.empty, PyDict.keys]

theorem NgramMemoryNameIndex.massDict_nodup (data : NgramMemoryNameIndex.Data)
    (w : Nat → Nat → ℚ) (t : EntityType) (gs : List PyStr) :
    (PyDict.keys (NgramMemoryNameIndex.massDict data w t gs)).Nodup := by
  unfold NgramMemoryNameIndex.massDict
  exact NgramMemoryNameIndex.massFold_nodup data w t gs PyDict.empty List.nodup_nil

theorem NgramMemoryNameIndex.foldl_max_bounds (l : List ℚ) :
    ∀ (a : ℚ), a ≤ l.foldl max a ∧ ∀ v ∈ l, v ≤ l.foldl max a := by
  induction l with
  | nil =>
    intro a
    exact ⟨le_refl a, fun v hv => absurd hv (List.not_mem_nil v)⟩
  | cons b l ih =>
    intro a
    rw [List.foldl_cons]
    refine ⟨le_trans (le_max_left a b) (ih (max a b)).1, ?_⟩
    intro v hv
    rcases List.mem_cons.mp hv with rfl | hv'
    · exact le_trans (le_max_right a v) (ih (max a v)).1
    · exact (ih (max a b)).2 v hv'

theorem NgramMemoryNameIndex.foldl_max_mem (l : List ℚ) :
    ∀ (a : ℚ), l.foldl max a ∈ l ∨ l.foldl max a = a := by
  induction l with
  | nil =>
    intro a
    exact Or.inr rfl
  | cons b l ih =>
    intro a
    rw [List.foldl_cons]
    rcases ih (max a b) with h | h
    · exact Or.inl (List.mem_cons_of_mem b h)
    · rcases max_choice a b with hm | hm
      · exact Or.inr (by rw [h, hm])
      · refine Or.inl ?_
        rw [h, hm]
        exact List.mem_cons_self b l

theorem NgramMemoryNameIndex.pyMax_mem (l : List ℚ) (h : l ≠ []) :
    NgramMemoryNameIndex.pyMax l ∈ l := by
  cases l with
  | nil => exact absurd rfl h
  | cons x xs =>
    unfold NgramMemoryNameIndex.pyMax
    rcases NgramMemoryNameIndex.foldl_max_mem (x :: xs) ((x :: xs).headD 0) with hm | hm
    · exact hm
    · rw [hm]
      exact List.mem_cons_self x xs

theorem NgramMemoryNameIndex.le_pyMax (l : List ℚ) (v : ℚ) (hv : v ∈ l) :
    v ≤ NgramMemoryNameIndex.pyMax l :=
  (NgramMemoryNameIndex.foldl_max_bounds l (l.headD 0)).2 v hv

theorem NgramMemoryNameIndex.find_eq (kb : MemoryKB) (data : NgramMemoryNameIndex.Data)
    (w : Nat → Nat → ℚ) (n : Nat) (name : PyStr) (t : EntityType) (limit : Nat)
    (hmd : NgramMemoryNameIndex.massDict data w t
        (ngrams (NgramMemoryNameIndex.format_string name) n) ≠ [])
    (hl : limit ≠ 0) :
    NgramMemoryNameIndex.find kb data w n name t limit
      = (((List.insertionSort NgramMemoryNameIndex.massGE
            ((NgramMemoryNameIndex.massDict data w t
                (ngrams (NgramMemoryNameIndex.format_string name) n)).filter
              (fun p => decide (NgramMemoryNameIndex.pyMax
                  (PyDict.values (NgramMemoryNameIndex.massDict data w t
                    (ngrams (NgramMemoryNameIndex.format_string name) n))) / 2 < p.2)))).map
          (fun p => p.1)).take limit).map
        (fun nid => MemoryKB.get_entity kb nid.1) := by
  unfold NgramMemoryNameIndex.find
  have h0 : ¬ (NgramMemoryNameIndex.massDict data w t
      (ngrams (NgramMemoryNameIndex.format_string name) n)).length = 0 := by
    intro hc
    exact hmd (List.length_eq_zero.mp hc)
  simp only [if_neg h0, if_pos hl]

/-! Characterization of num_unique_names: the all_names accumulator. -/

theorem NgramMemoryNameIndex.insName_mem (l : List PyStr) :
    ∀ (a0 : List PyStr) (x : PyStr),
      x ∈ l.foldl (fun a s => if s ∈ a then a else a ++ [s]) a0 ↔ x ∈ a0 ∨ x ∈ l := by
  induction l with
  | nil =>
    intro a0 x
    simp
  | cons s l ih =>
    intro a0 x
    rw [List.foldl_cons, ih]
    by_cases hs : s ∈ a0
    · rw [if_pos hs]
      constructor
      · rintro (h | h)
        · exact Or.inl h
        · exact Or.inr (List.mem_cons_of_mem s h)
      · rintro (h | h)
        · exact Or.inl h
        · rcases List.mem_cons.mp h with rfl | h'
          · exact Or.inl hs
          · exact Or.inr h'
    · rw [if_neg hs]
      constructor
      · rintro (h | h)
        · rcases List.mem_append.mp h with h' | h'
          · exact Or.inl h'
          · exact Or.inr (List.mem_cons.mpr (Or.inl (List.mem_singleton.mp h')))
        · exact Or.inr (List.mem_cons_of_mem s h)
      · rintro (h | h)
        · exact Or.inl (List.mem_append.mpr (Or.inl h))
        · rcases List.mem_cons.mp h with rfl | h'
          · exact Or.inl (List.mem_append.mpr (Or.inr (List.mem_singleton.mpr rfl)))
          · exact Or.inr h'

theorem NgramMemoryNameIndex.insName_nodup (l : List PyStr) :
    ∀ (a0 : List PyStr), a0.Nodup →
      (l.foldl (fun a s => if s ∈ a then a else a ++ [s]) a0).Nodup := by
  induction l with
  | nil =>
    intro a0 h
    exact h
  | cons s l ih =>
    intro a0 h
    rw [List.foldl_cons]
    by_cases hs : s ∈ a0
    · rw [if_pos hs]
      exact ih a0 h
    · rw [if_neg hs]
      refine ih _ ?_
      refine List.Nodup.append h (List.nodup_singleton s) ?_
      intro x hx hx'
      rw [List.mem_singleton] at hx'
      subst hx'
      exact hs hx

theorem NgramMemoryNameIndex.buildStepPairs_fst (e : Entity) (n : Nat)
    (lp : List (Nat × PyStr)) :
    ∀ (acc : List PyStr × TypeIndex (List NameId)),
      (lp.foldl (fun acc inm =>
          let low := pyLower inm.2
          let all := if low ∈ acc.1 then acc.1 else acc.1 ++ [low]
          let d := NgramMemoryNameIndex.addNameNgrams (acc.2 e.type) n (e.id, inm.1)
            (NgramMemoryNameIndex.format_string inm.2)
          (all, TypeIndex.update acc.2 e.type d)) acc).1
        = (lp.map (fun p => pyLower p.2)).foldl
            (fun a s => if s ∈ a then a else a ++ [s]) acc.1 := by
  induction lp with
  | nil =>
    intro acc
    rfl
  | cons inm lp ih =>
    intro acc
    rw [List.foldl_cons, List.map_cons, List.foldl_cons, ih]

theorem NgramMemoryNameIndex.buildStep_fst (n : Nat) (e : Entity)
    (acc : List PyStr × TypeIndex (List NameId)) :
    (NgramMemoryNameIndex.buildStep n acc e).1
      = (e.names.map pyLower).foldl (fun a s => if s ∈ a then a else a ++ [s]) acc.1 := by
  unfold NgramMemoryNameIndex.buildStep
  rw [NgramMemoryNameIndex.buildStepPairs_fst e n e.names.enum acc]
  have : e.names.enum.map (fun p : Nat × PyStr => pyLower p.2)
      = e.names.map pyLower := by
    rw [show (fun p : Nat × PyStr => pyLower p.2)
        = (pyLower ∘ (fun p : Nat × PyStr => p.2)) from rfl]
    rw [← List.map_map, List.enum_map_snd]
  rw [this]

theorem NgramMemoryNameIndex.build_fold_fst (n : Nat) (es : List Entity) :
    ∀ (acc : List PyStr × TypeIndex (List NameId)),
      (es.foldl (NgramMemoryNameIndex.buildStep n) acc).1
        = (((es.map (fun e => e.names)).flatten).map pyLower).foldl
            (fun a s => if s ∈ a then a else a ++ [s]) acc.1 := by
  induction es with
  | nil =>
    intro acc
    rfl
  | cons e es ih =>
    intro acc
    rw [List.foldl_cons, ih, List.map_cons, List.flatten_cons, List.map_append,
      List.foldl_append, NgramMemoryNameIndex.buildStep_fst]

theorem NgramMemoryNameIndex.num_unique_names_eq (kb : MemoryKB) (n : Nat) :
    (NgramMemoryNameIndex.build_index kb n).num_unique_names
      = (((MemoryKB.allNames kb).map pyLower).dedup).length := by
  unfold NgramMemoryNameIndex.build_index
  have h1 := NgramMemoryNameIndex.build_fold_fst n (MemoryKB.entityList kb)
    ([], fun _ => PyDict.empty)
  simp only [h1]
  refine List.Perm.length_eq ?_
  refine (List.perm_ext_iff_of_nodup
      (NgramMemoryNameIndex.insName_nodup _ [] List.nodup_nil)
      (List.nodup_dedup _)).mpr ?_
  intro x
  rw [NgramMemoryNameIndex.insName_mem, List.mem_dedup]
  unfold MemoryKB.allNames
  simp

/-- C1 (amended: mass accumulates once per n-gram occurrence on both the
query side and the posting-list side, so f is the occurrence count of the
n-gram over name instances rather than the number of name instances
containing it, and the result is truncated only for a nonzero limit; the
weight w(U, f) stands for the float ln(1 + U/f)): U is the number of distinct
lower-cased KB names; each scored name instance's mass is the sum over query
n-gram occurrences of (its occurrences in that n-gram's posting list) times
w(U, posting-list length); the scored instances are exactly those sharing at
least one n-gram with the query; candidates with mass at most half of the
maximum observed mass are discarded, the survivors are sorted by descending
mass, truncated to limit, and mapped through kb.get_entity. -/
theorem claim_c1_ngram_find (kb : MemoryKB) (w : Nat → Nat → ℚ) (n : Nat)
    (name : PyStr) (t : EntityType) (limit : Nat)
    (data : NgramMemoryNameIndex.Data)
    (hdata : data = NgramMemoryNameIndex.build_index kb n)
    (gs : List PyStr)
    (hgs : gs = ngrams (NgramMemoryNameIndex.format_string name) n)
    (md : PyDict NgramMemoryNameIndex.NameId ℚ)
    (hmdq : md = NgramMemoryNameIndex.massDict data w t gs)
    (hl : limit ≠ 0) :
    data.num_unique_names = (((MemoryKB.allNames kb).map pyLower).dedup).length
    ∧ (∀ x, ((PyDict.get? md x).getD 0)
        = ((gs.map (fun g => ((NgramMemoryNameIndex.posting data t g).count x : ℚ)
            * w data.num_unique_names (NgramMemoryNameIndex.posting data t g).length)).sum))
    ∧ (∀ x, x ∈ PyDict.keys md ↔ ∃ g ∈ gs, x ∈ NgramMemoryNameIndex.posting data t g)
    ∧ (∀ p ∈ md, PyDict.get? md p.1 = some p.2)
    ∧ (md ≠ [] → NgramMemoryNameIndex.pyMax (PyDict.values md) ∈ PyDict.values md
        ∧ ∀ v ∈ PyDict.values md, v ≤ NgramMemoryNameIndex.pyMax (PyDict.values md))
    ∧ (md = [] → NgramMemoryNameIndex.find kb data w n name t limit = [])
    ∧ (md ≠ [] → ∃ srt : List (NgramMemoryNameIndex.NameId × ℚ),
        srt.Perm (md.filter
          (fun p => decide (NgramMemoryNameIndex.pyMax (PyDict.values md) / 2 < p.2)))
        ∧ List.Sorted NgramMemoryNameIndex.massGE srt
        ∧ NgramMemoryNameIndex.find kb data w n name t limit
            = ((srt.map (fun p => p.1)).take limit).map
                (fun nid => MemoryKB.get_entity kb nid.1)
        ∧ (NgramMemoryNameIndex.find kb data w n name t limit).length ≤ limit) := by
  subst hdata
  subst hgs
  subst hmdq
  refine ⟨NgramMemoryNameIndex.num_unique_names_eq kb n,
    fun x => NgramMemoryNameIndex.massDict_getD _ w t _ x,
    fun x => NgramMemoryNameIndex.massDict_mem_keys _ w t _ x,
    fun p hp => PyDict.get?_eq_some_of_mem (NgramMemoryNameIndex.massDict_nodup _ w t _) hp,
    ?_, ?_, ?_⟩
  · intro hne
    have hv : PyDict.values (NgramMemoryNameIndex.massDict
        (NgramMemoryNameIndex.build_index kb n) w t
        (ngrams (NgramMemoryNameIndex.format_string name) n)) ≠ [] := by
      intro hc
      exact hne (List.map_eq_nil_iff.mp hc)
    exact ⟨NgramMemoryNameIndex.pyMax_mem _ hv,
      fun v hvv => NgramMemoryNameIndex.le_pyMax _ v hvv⟩
  · intro hmd
    exact NgramMemoryNameIndex.find_of_massDict_empty kb _ w n name t limit hmd
  · intro hne
    refine ⟨List.insertionSort NgramMemoryNameIndex.massGE
        ((NgramMemoryNameIndex.massDict (NgramMemoryNameIndex.build_index kb n) w t
          (ngrams (NgramMemoryNameIndex.format_string name) n)).filter
          (fun p => decide (NgramMemoryNameIndex.pyMax (PyDict.values
            (NgramMemoryNameIndex.massDict (NgramMemoryNameIndex.build_index kb n) w t
              (ngrams (NgramMemoryNameIndex.format_string name) n))) / 2 < p.2))),
      List.perm_insertionSort NgramMemoryNameIndex.massGE _,
      List.sorted_insertionSort NgramMemoryNameIndex.massGE _, ?_, ?_⟩
    · exact NgramMemoryNameIndex.find_eq kb _ w n name t limit hne hl
    · rw [NgramMemoryNameIndex.find_eq kb _ w n name t limit hne hl]
      rw [List.length_map]
      exact List.length_take_le limit _

/-- Witness for C1 at the two-entity KB with query aa aa, width 4, unit
weights and limit 25. -/
theorem claim_c1_witness :
    ((dataC1 = NgramMemoryNameIndex.build_index kbC1 4) ∧ (25 : Nat) ≠ 0)
    ∧ (dataC1.num_unique_names = (((MemoryKB.allNames kbC1).map pyLower).dedup).length
      ∧ (∀ x, ((PyDict.get? (NgramMemoryNameIndex.massDict dataC1 unitW EntityType.PER
            (ngrams (NgramMemoryNameIndex.format_string ("aa aa".toList)) 4)) x).getD 0)
          = (((ngrams (NgramMemoryNameIndex.format_string ("aa aa".toList)) 4).map
              (fun g => ((NgramMemoryNameIndex.posting dataC1 EntityType.PER g).count x : ℚ)
                * unitW dataC1.num_unique_names
                    (NgramMemoryNameIndex.posting dataC1 EntityType.PER g).length)).sum))
      ∧ (∀ x, x ∈ PyDict.keys (NgramMemoryNameIndex.massDict dataC1 unitW EntityType.PER
            (ngrams (NgramMemoryNameIndex.format_string ("aa aa".toList)) 4))
          ↔ ∃ g ∈ ngrams (NgramMemoryNameIndex.format_string ("aa aa".toList)) 4,
              x ∈ NgramMemoryNameIndex.posting dataC1 EntityType.PER g)
      ∧ (∀ p ∈ NgramMemoryNameIndex.massDict dataC1 unitW EntityType.PER
            (ngrams (NgramMemoryNameIndex.format_string ("aa aa".toList)) 4),
          PyDict.get? (NgramMemoryNameIndex.massDict dataC1 unitW EntityType.PER
            (ngrams (NgramMemoryNameIndex.format_string ("aa aa".toList)) 4)) p.1 = some p.2)
      ∧ (NgramMemoryNameIndex.massDict dataC1 unitW EntityType.PER
            (ngrams (NgramMemoryNameIndex.format_string ("aa aa".toList)) 4) ≠ [] →
          NgramMemoryNameIndex.pyMax (PyDict.values (NgramMemoryNameIndex.massDict dataC1
              unitW EntityType.PER
              (ngrams (NgramMemoryNameIndex.format_string ("aa aa".toList)) 4)))
            ∈ PyDict.values (NgramMemoryNameIndex.massDict dataC1 unitW EntityType.PER
              (ngrams (NgramMemoryNameIndex.format_string ("aa aa".toList)) 4))
          ∧ ∀ v ∈ PyDict.values (NgramMemoryNameIndex.massDict dataC1 unitW EntityType.PER
              (ngrams (NgramMemoryNameIndex.format_string ("aa aa".toList)) 4)),
              v ≤ NgramMemoryNameIndex.pyMax (PyDict.values (NgramMemoryNameIndex.massDict
                dataC1 unitW EntityType.PER
                (ngrams (NgramMemoryNameIndex.format_string ("aa aa".toList)) 4))))
      ∧ (NgramMemoryNameIndex.massDict dataC1 unitW EntityType.PER
            (ngrams (NgramMemoryNameIndex.format_string ("aa aa".toList)) 4) = [] →
          NgramMemoryNameIndex.find kbC1 dataC1 unitW 4 ("aa aa".toList) EntityType.PER 25
            = [])
      ∧ (NgramMemoryNameIndex.massDict dataC1 unitW EntityType.PER
            (ngrams (NgramMemoryNameIndex.format_string ("aa aa".toList)) 4) ≠ [] →
          ∃ srt : List (NgramMemoryNameIndex.NameId × ℚ),
            srt.Perm ((NgramMemoryNameIndex.massDict dataC1 unitW EntityType.PER
                (ngrams (NgramMemoryNameIndex.format_string ("aa aa".toList)) 4)).filter
              (fun p => decide (NgramMemoryNameIndex.pyMax (PyDict.values
                  (NgramMemoryNameIndex.massDict dataC1 unitW EntityType.PER
                    (ngrams (NgramMemoryNameIndex.format_string ("aa aa".toList)) 4))) / 2
                < p.2)))
            ∧ List.Sorted NgramMemoryNameIndex.massGE srt
            ∧ NgramMemoryNameIndex.find kbC1 dataC1 unitW 4 ("aa aa".toList) EntityType.PER 25
                = ((srt.map (fun p => p.1)).take 25).map
                    (fun nid => MemoryKB.get_entity kbC1 nid.1)
            ∧ (NgramMemoryNameIndex.find kbC1 dataC1 unitW 4 ("aa aa".toList)
                EntityType.PER 25).length ≤ 25)) :=
  ⟨⟨rfl, by decide⟩,
    claim_c1_ngram_find kbC1 unitW 4 ("aa aa".toList) EntityType.PER 25 dataC1 rfl
      _ rfl _ rfl (by decide)⟩

unseal Rat.add Rat.mul Rat.inv Rat.sub in
/-- C1 counterexample to the claim as stated: query aa aa (whose formatted
form repeats the 4-gram for aa) over a KB with entity 1 named aa and entity 2
named baa ab.  The source algorithm counts the repeated query n-gram twice,
doubling candidate 1's mass, so candidate 2 falls at exactly half of the
maximum and is discarded; under the claim's per-shared-n-gram mass both
candidates score equally and both survive.  The last conjunct shows the
limit = 0 case: the source applies no truncation (Python truthiness), while
the claim asks for at most 0 results. -/
theorem claim_c1_counterexample :
    NgramMemoryNameIndex.find kbC1 dataC1 unitW 4 ("aa aa".toList) EntityType.PER 25
      = [some entAA]
    ∧ NgramMemoryNameIndex.specFind kbC1 dataC1 unitW 4 ("aa aa".toList) EntityType.PER 25
      = [some entBAAB, some entAA]
    ∧ NgramMemoryNameIndex.find kbC1 dataC1 unitW 4 ("aa aa".toList) EntityType.PER 25
      ≠ NgramMemoryNameIndex.specFind kbC1 dataC1 unitW 4 ("aa aa".toList) EntityType.PER 25
    ∧ NgramMemoryNameIndex.find kbC1 dataC1 unitW 4 ("aa".toList) EntityType.PER 0
      = [some entAA] := by
  decide

/-- C10: the n-gram index result is not de-duplicated by entity id.  For the
KB whose single entity 1 has the two names aa and AA, the query aa scores
both name instances of entity 1 above the threshold (for every positive idf
weight, the logarithmic one included), and find returns entity 1 twice. -/
theorem claim_c10_duplicate_entity (w : Nat → Nat → ℚ) (hw : 0 < w 1 2) :
    NgramMemoryNameIndex.find kbC10 dataC10 w 4 ("aa".toList) EntityType.PER 25
      = [some entDouble, some entDouble]
    ∧ 2 ≤ ((NgramMemoryNameIndex.find kbC10 dataC10 w 4 ("aa".toList)
        EntityType.PER 25).map
        (fun o => Option.map Entity.id o)).count (some ("1".toList)) := by
  have hfind : NgramMemoryNameIndex.find kbC10 dataC10 w 4 ("aa".toList) EntityType.PER 25
      = [some entDouble, some entDouble] := by
    have hmd : NgramMemoryNameIndex.massDict dataC10 w EntityType.PER
        (ngrams (NgramMemoryNameIndex.format_string ("aa".toList)) 4)
        = [((("1".toList), 0), 0 + w 1 2), ((("1".toList), 1), 0 + w 1 2)] := rfl
    rw [zero_add] at hmd
    have hlt : w 1 2 / 2 < w 1 2 := div_lt_self hw one_lt_two
    unfold NgramMemoryNameIndex.find
    simp only [hmd]
    simp only [List.length_cons, List.length_nil, PyDict.values, List.map_cons, List.map_nil,
      NgramMemoryNameIndex.pyMax, List.headD, List.foldl, max_self, List.filter,
      hlt, decide_True, List.insertionSort, List.orderedInsert,
      NgramMemoryNameIndex.massGE, le_refl, List.take, List.map]
    norm_num
    rfl
  refine ⟨hfind, ?_⟩
  rw [hfind]
  decide

/-- Witness for C10 at the unit weight. -/
theorem claim_c10_witness :
    (0 < unitW 1 2)
    ∧ (NgramMemoryNameIndex.find kbC10 dataC10 unitW 4 ("aa".toList) EntityType.PER 25
        = [some entDouble, some entDouble]
      ∧ 2 ≤ ((NgramMemoryNameIndex.find kbC10 dataC10 unitW 4 ("aa".toList)
          EntityType.PER 25).map
          (fun o => Option.map Entity.id o)).count (some ("1".toList))) :=
  ⟨by decide, claim_c10_duplicate_entity unitW (by decide)⟩

end Hamerkop
